import Mathlib

/-!
Shallow embedding of the geany-copilot Python plugin (cache, conversation,
error handling) for checking its natural-language specification.

Timestamps are modelled as integers (a mocked clock in seconds); the float
clock of the Python code only enters comparisons and subtraction, which the
integer model reflects.  Python dictionaries that preserve insertion order
(`OrderedDict`, plain `dict`) are modelled as association lists whose head is
the oldest (least recently used) binding.
-/

/-- Python values as consumed by `CacheEntry._calculate_size` in
`core/cache.py`: strings, numbers (int/float both count 8 bytes), lists,
dicts, and any other object (sized from its `str()` representation). -/
inductive PyVal where
  | vstr (s : String)
  | vint (n : Int)
  | vfloat (q : Rat)
  | vlist (xs : List PyVal)
  | vdict (entries : List (PyVal × PyVal))
  | vother (repr : String)
deriving Repr

mutual

/-- `CacheEntry._calculate_size` (core/cache.py): utf-8 byte length for
strings, 8 for numbers, recursive sums for lists and dicts, and
`len(str(obj)) * 2` for anything else. -/
def calculate_size : PyVal → Nat
  | .vstr s => s.utf8ByteSize
  | .vint _ => 8
  | .vfloat _ => 8
  | .vlist xs => calculate_size_list xs
  | .vdict es => calculate_size_dict es
  | .vother r => r.length * 2

def calculate_size_list : List PyVal → Nat
  | [] => 0
  | x :: xs => calculate_size x + calculate_size_list xs

def calculate_size_dict : List (PyVal × PyVal) → Nat
  | [] => 0
  | (k, v) :: es => (calculate_size k + calculate_size v) + calculate_size_dict es

end

/-- `CacheEntry` (core/cache.py): cached value plus metadata; `size_bytes` is
filled in by `__post_init__` from `_calculate_size(value)`. -/
structure CacheEntry where
  value : PyVal
  timestamp : Int
  access_count : Nat
  last_access : Int
  size_bytes : Nat
deriving Repr

/-- Constructing a `CacheEntry` as `LRUCache.put` does: fresh entry at time
`now`, with `size_bytes` computed from the value. -/
def CacheEntry.mk' (now : Int) (v : PyVal) : CacheEntry :=
  { value := v
    timestamp := now
    access_count := 0
    last_access := now
    size_bytes := calculate_size v }

/-- `CacheEntry.is_expired`: age strictly greater than the ttl. -/
def CacheEntry.is_expired (e : CacheEntry) (now ttl : Int) : Bool :=
  now - e.timestamp > ttl

/-- First binding for a key in an association list (Python dict lookup). -/
def alistFind (k : String) : List (String × CacheEntry) → Option CacheEntry
  | [] => none
  | (k', e) :: rest => if k' = k then some e else alistFind k rest

/-- Remove the first binding for a key (Python `dict.pop` / `del`). -/
def alistErase (k : String) : List (String × CacheEntry) → List (String × CacheEntry)
  | [] => []
  | (k', e) :: rest => if k' = k then rest else (k', e) :: alistErase k rest

/-- `LRUCache` (core/cache.py).  `cache` is the `OrderedDict`, head = least
recently used.  `total_size` mirrors the mutable `_total_size` counter, kept
as an integer because the code subtracts from it.  `access_patterns` and
`related_keys` mirror the two auxiliary dicts. -/
structure LRUCache where
  max_size : Nat
  max_memory_bytes : Nat
  default_ttl : Int
  cache : List (String × CacheEntry)
  total_size : Int
  hit_count : Nat
  miss_count : Nat
  eviction_count : Nat
  access_patterns : List (String × List Int)
  related_keys : List (String × List String)
deriving Repr

/-- `LRUCache.__init__`: empty cache with the given limits. -/
def LRUCache.init (max_size max_memory_bytes : Nat) (default_ttl : Int) : LRUCache :=
  { max_size := max_size
    max_memory_bytes := max_memory_bytes
    default_ttl := default_ttl
    cache := []
    total_size := 0
    hit_count := 0
    miss_count := 0
    eviction_count := 0
    access_patterns := []
    related_keys := [] }

/-- `LRUCache._remove_entry`: pop the binding if present and subtract its
size from the running total. -/
def LRUCache.remove_entry (k : String) (c : LRUCache) : LRUCache :=
  match alistFind k c.cache with
  | none => c
  | some e =>
      { c with cache := alistErase k c.cache
               total_size := c.total_size - e.size_bytes }

/-- `LRUCache._evict_lru`: remove the first (least recently used) binding;
`none` models returning `False` on an empty cache. -/
def LRUCache.evict_lru (c : LRUCache) : Option LRUCache :=
  match c.cache with
  | [] => none
  | (k, _) :: _ =>
      some { c.remove_entry k with eviction_count := c.eviction_count + 1 }

/-- The `while` loop of `LRUCache.put` that makes space for an entry of
`sz` bytes: evict while the cache is at `max_size` or the new total would
exceed the byte budget; a `false` result models `put` returning `False`
because no space could be made.  `fuel` bounds the recursion; callers pass
`c.cache.length + 1`, which the loop can never exhaust (each eviction
shortens the cache by one and the loop stops on an empty cache). -/
def LRUCache.make_space : Nat → LRUCache → Nat → Bool × LRUCache
  | 0, c, _ => (false, c)
  | fuel + 1, c, sz =>
      if c.cache.length ≥ c.max_size ∨ c.total_size + (sz : Int) > (c.max_memory_bytes : Int) then
        match c.evict_lru with
        | none => (false, c)
        | some c' => LRUCache.make_space fuel c' sz
      else (true, c)

/-- Tracking helper `LRUCache._track_access_pattern`: append the access time
for the key and keep only the last 10 entries. -/
def track_access_pattern (now : Int) (k : String) :
    List (String × List Int) → List (String × List Int)
  | [] => [(k, [now])]
  | (k', ts) :: rest =>
      if k' = k then
        let ts' := ts ++ [now]
        (k', ts'.drop (ts'.length - 10)) :: rest
      else (k', ts) :: track_access_pattern now k rest

/-- `LRUCache.get`: miss on unknown key; lazily evict and miss on an entry
older than `default_ttl`; otherwise move the entry to the most recently used
position, bump its access data and return its value. -/
def LRUCache.get (now : Int) (k : String) (c : LRUCache) : Option PyVal × LRUCache :=
  match alistFind k c.cache with
  | none => (none, { c with miss_count := c.miss_count + 1 })
  | some e =>
      if e.is_expired now c.default_ttl then
        (none, c.remove_entry k)
      else
        let e' := { e with access_count := e.access_count + 1, last_access := now }
        (some e.value,
          { c with cache := alistErase k c.cache ++ [(k, e')]
                   access_patterns := track_access_pattern now k c.access_patterns
                   hit_count := c.hit_count + 1 })

/-- `LRUCache.put`.  The `ttl` argument is accepted as in the source but,
exactly as in the source, never stored: the body normalises it to
`default_ttl` and then drops it.  Rejects entries larger than the whole byte
budget, removes any previous binding of the key, evicts until there is
space, then appends the new entry as most recently used. -/
def LRUCache.put (now : Int) (k : String) (v : PyVal) (_ttl : Option Int)
    (c : LRUCache) : Bool × LRUCache :=
  let entry := CacheEntry.mk' now v
  if entry.size_bytes > c.max_memory_bytes then (false, c)
  else
    let c1 := c.remove_entry k
    match LRUCache.make_space (c1.cache.length + 1) c1 entry.size_bytes with
    | (false, c2) => (false, c2)
    | (true, c2) =>
        (true, { c2 with cache := c2.cache ++ [(k, entry)]
                         total_size := c2.total_size + entry.size_bytes })

/-- `LRUCache.clear`. -/
def LRUCache.clear (c : LRUCache) : LRUCache :=
  { c with cache := [], total_size := 0 }

/-- Set-insert on the list model of a Python `set` of strings. -/
def setAdd (x : String) (l : List String) : List String :=
  if x ∈ l then l else l ++ [x]

/-- Lookup in the `related_keys` map. -/
def relFind (k : String) : List (String × List String) → Option (List String)
  | [] => none
  | (k', v) :: rest => if k' = k then some v else relFind k rest

/-- Pointwise update of the `related_keys` map (key assumed present). -/
def relUpdate (k : String) (f : List String → List String) :
    List (String × List String) → List (String × List String)
  | [] => []
  | (k', v) :: rest =>
      if k' = k then (k', f v) :: rest else (k', v) :: relUpdate k f rest

/-- `LRUCache.add_related_key`: make sure both keys have a (possibly empty)
relation set, then add each to the other's set. -/
def LRUCache.add_related_key (k1 k2 : String) (c : LRUCache) : LRUCache :=
  let rel := c.related_keys
  let rel := if (relFind k1 rel).isSome then rel else rel ++ [(k1, [])]
  let rel := if (relFind k2 rel).isSome then rel else rel ++ [(k2, [])]
  let rel := relUpdate k1 (setAdd k2) rel
  let rel := relUpdate k2 (setAdd k1) rel
  { c with related_keys := rel }

/-- `LRUCache.invalidate_related`: drop the key itself, then every key in
its relation set that is still cached; collect the removed keys.  As in the
source, the `related_keys` map itself is left untouched. -/
def LRUCache.invalidate_related (k : String) (c : LRUCache) : List String × LRUCache :=
  let start : List String × LRUCache :=
    if (alistFind k c.cache).isSome then ([k], c.remove_entry k) else ([], c)
  let rel := (relFind k c.related_keys).getD []
  rel.foldl
    (fun acc rk =>
      if (alistFind rk acc.2.cache).isSome then
        (acc.1 ++ [rk], acc.2.remove_entry rk)
      else acc)
    start

/-- The step function of the fold inside `invalidate_related`. -/
def invalidateStep (acc : List String × LRUCache) (rk : String) : List String × LRUCache :=
  if (alistFind rk acc.2.cache).isSome then
    (acc.1 ++ [rk], acc.2.remove_entry rk)
  else acc

/-- One pass of the nested loop in `LRUCache.optimize_cache` that removes a
stale key from the relation sets of its related keys, then deletes its own
relation entry. -/
def dropRelationsOf (k : String) (rel : List (String × List String)) :
    List (String × List String) :=
  let neighbours := (relFind k rel).getD []
  let rel := neighbours.foldl
    (fun r rk => if (relFind rk r).isSome then relUpdate rk (·.filter (· ≠ k)) r else r)
    rel
  rel.filter (·.1 ≠ k)

/-- `LRUCache.optimize_cache`: remove entries not accessed within the last
3600 seconds (the hard-coded `stale_threshold`), then clean the access
patterns and relation sets of the removed keys. -/
def LRUCache.optimize_cache (now : Int) (c : LRUCache) : Nat × LRUCache :=
  let stale := (c.cache.filter (fun kv => now - kv.2.last_access > 3600)).map Prod.fst
  let c' := stale.foldl (fun cc k => cc.remove_entry k) c
  let pats := stale.foldl (fun p k => p.filter (·.1 ≠ k)) c'.access_patterns
  let rel := stale.foldl (fun r k => if (relFind k r).isSome then dropRelationsOf k r else r)
    c'.related_keys
  (stale.length, { c' with access_patterns := pats, related_keys := rel })

/-- The cache operations the specification quantifies over. -/
inductive CacheOp where
  | put (now : Int) (k : String) (v : PyVal) (ttl : Option Int)
  | get (now : Int) (k : String)
  | invalidate_related (k : String)
  | add_related_key (k1 k2 : String)
  | optimize (now : Int)
  | clear
deriving Repr

/-- State transition of one cache operation (return values dropped). -/
def applyCacheOp (c : LRUCache) : CacheOp → LRUCache
  | .put now k v ttl => (LRUCache.put now k v ttl c).2
  | .get now k => (LRUCache.get now k c).2
  | .invalidate_related k => (LRUCache.invalidate_related k c).2
  | .add_related_key k1 k2 => LRUCache.add_related_key k1 k2 c
  | .optimize now => (LRUCache.optimize_cache now c).2
  | .clear => LRUCache.clear c

/-- Keys currently live in the cache, oldest first. -/
def LRUCache.keys (c : LRUCache) : List String := c.cache.map Prod.fst

/-- Sum of the recorded sizes of the live entries. -/
def sizesSum (l : List (String × CacheEntry)) : Int :=
  (l.map (fun kv => (kv.2.size_bytes : Int))).sum

/-- `ConversationTurn` (core/agent.py). -/
structure ConversationTurn where
  timestamp : Int
  user_message : String
  assistant_response : String
  context : Option String
  reasoning : Option String
deriving Repr, DecidableEq

/-- `Conversation` (core/agent.py), restricted to the fields the memory
management touches. -/
structure Conversation where
  id : String
  agent_type : String
  turns : List ConversationTurn
  context : Option String
  created_at : Int
  updated_at : Int
  last_activity : Int
  max_turns : Nat
deriving Repr, DecidableEq

/-- `Conversation.add_turn`: append the new turn, refresh the activity
timestamps, then drop the oldest turns past `max_turns` — whole turns only. -/
def Conversation.add_turn (now : Int) (user_message assistant_response : String)
    (context reasoning : Option String) (cv : Conversation) : Conversation :=
  let turn : ConversationTurn :=
    { timestamp := now
      user_message := user_message
      assistant_response := assistant_response
      context := context
      reasoning := reasoning }
  let turns := cv.turns ++ [turn]
  let turns :=
    if turns.length > cv.max_turns then turns.drop (turns.length - cv.max_turns)
    else turns
  { cv with turns := turns, updated_at := now, last_activity := now }

/-- One `add_turn` request: the data of a single append. -/
structure TurnReq where
  now : Int
  user_message : String
  assistant_response : String
  context : Option String
  reasoning : Option String
deriving Repr

/-- The turn record a `TurnReq` produces. -/
def TurnReq.toTurn (r : TurnReq) : ConversationTurn :=
  { timestamp := r.now
    user_message := r.user_message
    assistant_response := r.assistant_response
    context := r.context
    reasoning := r.reasoning }

/-- Apply a sequence of `add_turn` calls in order. -/
def Conversation.add_turns (cv : Conversation) (reqs : List TurnReq) : Conversation :=
  reqs.foldl (fun c r => c.add_turn r.now r.user_message r.assistant_response r.context r.reasoning) cv

/-- Python `int()` applied to a rational clock value: truncation toward
zero, which is what `Int.div` on numerator and denominator computes. -/
def pyInt (q : Rat) : Int := q.num / (q.den : Int)

/-- The conversation store of `AIAgent`: a dict keyed by conversation id
(insertion ordered), plus the active conversation id. -/
structure AgentStore where
  conversations : List (String × Conversation)
  active_conversation : Option String
deriving Repr

/-- Insert-or-replace for the conversation dict: assigning to an existing
key overwrites in place, a new key is appended. -/
def convAssign (k : String) (v : Conversation) :
    List (String × Conversation) → List (String × Conversation)
  | [] => [(k, v)]
  | (k', v') :: rest =>
      if k' = k then (k', v) :: rest else (k', v') :: convAssign k v rest

/-- Dict lookup in the conversation store. -/
def convFind (k : String) : List (String × Conversation) → Option Conversation
  | [] => none
  | (k', v) :: rest => if k' = k then some v else convFind k rest

/-- `AIAgent.start_conversation`: the id is `f"{agent_type}_{int(time.time())}"`;
the fresh conversation is stored under that id (overwriting any previous one)
and made active. -/
def AIAgent.start_conversation (agent_type : String) (initial_context : String)
    (now : Rat) (s : AgentStore) : String × AgentStore :=
  let conversation_id := agent_type ++ "_" ++ toString (pyInt now)
  let cv : Conversation :=
    { id := conversation_id
      agent_type := agent_type
      turns := []
      context := some initial_context
      created_at := pyInt now
      updated_at := pyInt now
      last_activity := pyInt now
      max_turns := 50 }
  (conversation_id,
    { conversations := convAssign conversation_id cv s.conversations
      active_conversation := some conversation_id })

/-- Recording a turn on a stored conversation, as `continue_conversation`
does via `conversation.add_turn` after looking the conversation up. -/
def AgentStore.add_turn_to (id : String) (r : TurnReq) (s : AgentStore) : AgentStore :=
  match convFind id s.conversations with
  | none => s
  | some cv =>
      { s with conversations :=
          (convAssign id
            (cv.add_turn r.now r.user_message r.assistant_response r.context r.reasoning)
            s.conversations) }

/-! ## Conversation cleanup (`AIAgent._cleanup_conversations`) -/

/-- The data of one stored conversation that the cleanup sweep inspects. -/
structure ConvMeta where
  id : String
  last_activity : Int
  estimated_mb : Rat
deriving Repr, DecidableEq

/-- Stable descending insertion by a rational key: an element is placed
before the first strictly smaller key, after equal ones — the order
`sorted(..., reverse=True)` produces. -/
def insertByDesc (key : ConvMeta → Rat) (x : ConvMeta) :
    List ConvMeta → List ConvMeta
  | [] => [x]
  | y :: ys => if key y ≤ key x then x :: y :: ys else y :: insertByDesc key x ys

/-- Stable descending sort by a rational key (insertion sort). -/
def sortByDesc (key : ConvMeta → Rat) : List ConvMeta → List ConvMeta
  | [] => []
  | x :: xs => insertByDesc key x (sortByDesc key xs)

/-- The memory-pressure loop of `_cleanup_conversations`: pop the largest
remaining conversation while the running total exceeds the budget,
collecting the ids to delete. -/
def memEvictIds (max_total : Rat) : Rat → List ConvMeta → List String
  | _, [] => []
  | total, x :: xs =>
      if total > max_total then x.id :: memEvictIds max_total (total - x.estimated_mb) xs
      else []

/-- `AIAgent._cleanup_conversations` over the sweep-relevant data: (a) drop
conversations whose `last_activity` is before the age cutoff; (b) while the
summed size exceeds the byte budget, drop largest-first; (c) if more than
`max_conversations` remain, drop all but the most recent by
`last_activity`.  Deletions go through the dict, so the surviving list keeps
its original (insertion) order. -/
def cleanup_conversations (now : Int) (max_conversations : Nat)
    (max_conversation_age_hours : Int) (max_total_memory_mb : Rat)
    (convs : List ConvMeta) : List ConvMeta :=
  let cutoff := now - max_conversation_age_hours * 3600
  let convs := convs.filter (fun c => ¬ c.last_activity < cutoff)
  let total : Rat := (convs.map (·.estimated_mb)).sum
  let bySize := sortByDesc (·.estimated_mb) convs
  let memDrop := if total > max_total_memory_mb then memEvictIds max_total_memory_mb total bySize else []
  let convs := convs.filter (fun c => ¬ c.id ∈ memDrop)
  if convs.length > max_conversations then
    let byActivity := sortByDesc (fun c => (c.last_activity : Rat)) convs
    let countDrop := (byActivity.drop max_conversations).map (·.id)
    convs.filter (fun c => ¬ c.id ∈ countDrop)
  else convs

/-! ## Error recovery (`utils/error_handling.py`) -/

/-- Circuit breaker states. -/
inductive BreakerState where
  | closed
  | tripped
  | halfOpen
deriving Repr, DecidableEq

/-- The per-operation circuit breaker dict entry set up by
`trip_circuit_breaker`. -/
structure Breaker where
  state : BreakerState
  tripped_at : Int
  timeout_seconds : Int
deriving Repr, DecidableEq

/-- One recorded error: its timestamp and, when recorded by the retry
wrapper, the 1-based attempt number placed in the context dict. -/
structure ErrorInfo where
  timestamp : Int
  attempt : Option Nat
deriving Repr, DecidableEq

/-- `ErrorRecoveryManager`: rolling error history, per-operation circuit
breakers and the set of degraded feature names. -/
structure ErrorRecoveryManager where
  max_errors_per_hour : Nat
  error_history : List ErrorInfo
  circuit_breakers : List (String × Breaker)
  degraded_features : List String
deriving Repr, DecidableEq

/-- A fresh manager (`ErrorRecoveryManager.__init__`). -/
def ErrorRecoveryManager.init (max_errors_per_hour : Nat) : ErrorRecoveryManager :=
  { max_errors_per_hour := max_errors_per_hour
    error_history := []
    circuit_breakers := []
    degraded_features := [] }

/-- `_trigger_graceful_degradation`: add the three fixed feature names to
the degraded set. -/
def triggerDegradation (m : ErrorRecoveryManager) : ErrorRecoveryManager :=
  { m with degraded_features :=
      setAdd "advanced_caching" (setAdd "auto_context_analysis" (setAdd "streaming" m.degraded_features)) }

/-- `record_error` (context reduced to the attempt number): append the
occurrence, drop entries older than one hour, and trigger degradation when
the rolling-hour count exceeds `max_errors_per_hour`. -/
def ErrorRecoveryManager.record_error (now : Int) (attempt : Option Nat)
    (m : ErrorRecoveryManager) : ErrorRecoveryManager :=
  let history := m.error_history ++ [{ timestamp := now, attempt := attempt }]
  let history := history.filter (fun e => now - 3600 < e.timestamp)
  let m := { m with error_history := history }
  if history.length > m.max_errors_per_hour then triggerDegradation m else m

/-- Recording a sequence of errors, each at its own timestamp
(`record_error` called repeatedly with default category/severity). -/
def recordErrors (ts : List Int) (m : ErrorRecoveryManager) : ErrorRecoveryManager :=
  ts.foldl (fun mm t => mm.record_error t none) m

/-- Lookup in the circuit-breaker dict. -/
def breakerFind (op : String) : List (String × Breaker) → Option Breaker
  | [] => none
  | (op', b) :: rest => if op' = op then some b else breakerFind op rest

/-- Insert-or-replace in the circuit-breaker dict. -/
def breakerAssign (op : String) (b : Breaker) :
    List (String × Breaker) → List (String × Breaker)
  | [] => [(op, b)]
  | (op', b') :: rest =>
      if op' = op then (op', b) :: rest else (op', b') :: breakerAssign op b rest

/-- Pointwise state update of an existing breaker. -/
def breakerSetState (op : String) (st : BreakerState) :
    List (String × Breaker) → List (String × Breaker)
  | [] => []
  | (op', b) :: rest =>
      if op' = op then (op', { b with state := st }) :: rest
      else (op', b) :: breakerSetState op st rest

/-- `trip_circuit_breaker`: (re)install the breaker as open at `now`. -/
def ErrorRecoveryManager.trip_circuit_breaker (now : Int) (op : String)
    (timeout_seconds : Int) (m : ErrorRecoveryManager) : ErrorRecoveryManager :=
  { m with circuit_breakers :=
      (breakerAssign op
        { state := .tripped, tripped_at := now, timeout_seconds := timeout_seconds }
        m.circuit_breakers) }

/-- `check_circuit_breaker`: allow when no breaker exists or it is closed;
otherwise allow — moving the breaker to half-open — exactly when strictly
more than `timeout_seconds` have passed since the trip. -/
def ErrorRecoveryManager.check_circuit_breaker (now : Int) (op : String)
    (m : ErrorRecoveryManager) : Bool × ErrorRecoveryManager :=
  match breakerFind op m.circuit_breakers with
  | none => (true, m)
  | some b =>
      if b.state = .closed then (true, m)
      else if now - b.tripped_at > b.timeout_seconds then
        (true, { m with circuit_breakers := breakerSetState op .halfOpen m.circuit_breakers })
      else (false, m)

/-- `reset_circuit_breaker`: close the breaker if it exists. -/
def ErrorRecoveryManager.reset_circuit_breaker (op : String)
    (m : ErrorRecoveryManager) : ErrorRecoveryManager :=
  { m with circuit_breakers := breakerSetState op .closed m.circuit_breakers }

/-- Observable outcome of a call through the `with_error_handling` wrapper:
the returned value (`Except.error` models an exception propagating to the
caller, `Except.ok none` models returning Python `None`), the number of
times the wrapped function was invoked, the sleeps performed between
attempts, and the error manager afterwards. -/
structure RetryOutcome (β : Type) where
  result : Except String (Option β)
  invocations : Nat
  delays : List Rat
  manager : Option ErrorRecoveryManager
deriving Repr

/-- The code run once all attempts have failed: trip the named breaker (when
a manager is available), then return the fallback value if one is configured,
else re-raise the last exception. -/
def retryEpilogue (β : Type) (now : Int) (fallback_value : Option β)
    (circuit_breaker : Option String) (manager : Option ErrorRecoveryManager)
    (invocations : Nat) (delays : List Rat) (last_exception : String) : RetryOutcome β :=
  let manager :=
    match circuit_breaker, manager with
    | some name, some m => some (m.trip_circuit_breaker now name 300)
    | _, _ => manager
  { result :=
      match fallback_value with
      | some v => Except.ok (some v)
      | none => Except.error last_exception
    invocations := invocations
    delays := delays
    manager := manager }

/-- The `for attempt in range(retry_count + 1)` loop of the wrapper.
`remaining` counts the attempts still allowed (so the loop body runs with
`remaining = retry_count + 1 - attempt`); on failure the error is recorded
with the 1-based attempt number, and unless this was the last attempt the
wrapper sleeps `retry_delay * (attempt + 1)` (when `retry_delay > 0`) and
retries.  On a success after at least one retry the breaker is reset. -/
def retryAttempts (β : Type) (now : Int) (retry_delay : Rat) (fallback_value : Option β)
    (circuit_breaker : Option String) (op : Nat → Except String β) :
    Nat → Nat → Option ErrorRecoveryManager → Nat → List Rat → String → RetryOutcome β
  | 0, _, manager, invocations, delays, last =>
      retryEpilogue β now fallback_value circuit_breaker manager invocations delays last
  | remaining + 1, attempt, manager, invocations, delays, _ =>
      match op attempt with
      | .ok v =>
          let manager :=
            if attempt > 0 then
              match circuit_breaker, manager with
              | some name, some m => some (m.reset_circuit_breaker name)
              | _, _ => manager
            else manager
          { result := Except.ok (some v)
            invocations := invocations + 1
            delays := delays
            manager := manager }
      | .error e =>
          let manager := manager.map (·.record_error now (some (attempt + 1)))
          if remaining = 0 then
            retryEpilogue β now fallback_value circuit_breaker manager (invocations + 1) delays e
          else
            let delays := if 0 < retry_delay then delays ++ [retry_delay * ((attempt : Rat) + 1)] else delays
            retryAttempts β now retry_delay fallback_value circuit_breaker op
              remaining (attempt + 1) manager (invocations + 1) delays e

/-- `with_error_handling` (utils/error_handling.py), with the wrapped
function modelled as a map from attempt number to its outcome at that
attempt.  When a breaker name and a manager are present, the breaker is
consulted first; if it blocks, the function is never invoked and the
fallback value is returned. -/
def with_error_handling (β : Type) (now : Int) (retry_count : Nat) (retry_delay : Rat)
    (fallback_value : Option β) (circuit_breaker : Option String)
    (manager : Option ErrorRecoveryManager) (op : Nat → Except String β) : RetryOutcome β :=
  match circuit_breaker, manager with
  | some name, some m =>
      let checked := m.check_circuit_breaker now name
      if checked.1 then
        retryAttempts β now retry_delay fallback_value circuit_breaker op
          (retry_count + 1) 0 (some checked.2) 0 [] ""
      else
        { result := Except.ok fallback_value
          invocations := 0
          delays := []
          manager := some checked.2 }
  | _, _ =>
      retryAttempts β now retry_delay fallback_value circuit_breaker op
        (retry_count + 1) 0 manager 0 [] ""

/-! ## Association-list lemmas -/

theorem alistFind_eq_none_iff (k : String) (l : List (String × CacheEntry)) :
    alistFind k l = none ↔ k ∉ l.map Prod.fst := by
  induction l with
  | nil => simp [alistFind]
  | cons hd tl ih =>
      obtain ⟨k', e⟩ := hd
      by_cases h : k' = k
      · simp [alistFind, h]
      · simp [alistFind, h, ih, Ne.symm h]

theorem alistFind_mem {k : String} {l : List (String × CacheEntry)} {e : CacheEntry}
    (h : alistFind k l = some e) : (k, e) ∈ l := by
  induction l with
  | nil => simp [alistFind] at h
  | cons hd tl ih =>
      obtain ⟨k', e'⟩ := hd
      by_cases hk : k' = k
      · subst hk
        simp [alistFind] at h
        simp [h]
      · simp [alistFind, hk] at h
        exact List.mem_cons_of_mem _ (ih h)

theorem alistErase_sublist (k : String) (l : List (String × CacheEntry)) :
    (alistErase k l).Sublist l := by
  induction l with
  | nil => simp [alistErase]
  | cons hd tl ih =>
      obtain ⟨k', e⟩ := hd
      by_cases h : k' = k
      · simp [alistErase, h]
      · simpa [alistErase, h] using ih.cons₂ (k', e)

theorem alistErase_keys (k : String) (l : List (String × CacheEntry)) :
    (alistErase k l).map Prod.fst = (l.map Prod.fst).erase k := by
  induction l with
  | nil => simp [alistErase]
  | cons hd tl ih =>
      obtain ⟨k', e⟩ := hd
      by_cases h : k' = k
      · simp [alistErase, h, List.erase_cons]
      · simp [alistErase, h, List.erase_cons, ih]

theorem alistErase_of_find_none {k : String} {l : List (String × CacheEntry)}
    (h : alistFind k l = none) : alistErase k l = l := by
  induction l with
  | nil => simp [alistErase]
  | cons hd tl ih =>
      obtain ⟨k', e⟩ := hd
      by_cases hk : k' = k
      · simp [alistFind, hk] at h
      · simp [alistFind, hk] at h
        simp [alistErase, hk, ih h]

theorem sizesSum_nil : sizesSum [] = 0 := rfl

theorem sizesSum_append (l1 l2 : List (String × CacheEntry)) :
    sizesSum (l1 ++ l2) = sizesSum l1 + sizesSum l2 := by
  simp [sizesSum]

theorem sizesSum_cons (kv : String × CacheEntry) (l : List (String × CacheEntry)) :
    sizesSum (kv :: l) = (kv.2.size_bytes : Int) + sizesSum l := by
  simp [sizesSum]

theorem sizesSum_nonneg (l : List (String × CacheEntry)) : 0 ≤ sizesSum l := by
  induction l with
  | nil => simp [sizesSum]
  | cons hd tl ih =>
      rw [sizesSum_cons]
      positivity

theorem sizesSum_erase {k : String} {l : List (String × CacheEntry)} {e : CacheEntry}
    (h : alistFind k l = some e) :
    sizesSum (alistErase k l) = sizesSum l - (e.size_bytes : Int) := by
  induction l with
  | nil => simp [alistFind] at h
  | cons hd tl ih =>
      obtain ⟨k', e'⟩ := hd
      by_cases hk : k' = k
      · simp [alistFind, hk] at h
        subst h
        simp [alistErase, hk, sizesSum_cons]
      · simp [alistFind, hk] at h
        simp [alistErase, hk, sizesSum_cons, ih h]
        ring

/-! ## The cache byte-accounting invariant -/

/-- The invariant the specification claims for every reachable cache state:
keys are unique (a dict), the running total equals the sum of the live
entries' recorded sizes, that sum stays within the byte budget, and every
live entry's `size_bytes` is `_calculate_size` of its value. -/
structure CacheInv (c : LRUCache) : Prop where
  nodup : c.keys.Nodup
  total_eq : c.total_size = sizesSum c.cache
  total_le : c.total_size ≤ (c.max_memory_bytes : Int)
  sizes_ok : ∀ kv ∈ c.cache, kv.2.size_bytes = calculate_size kv.2.value

theorem CacheInv.init (max_size max_memory_bytes : Nat) (default_ttl : Int) :
    CacheInv (LRUCache.init max_size max_memory_bytes default_ttl) := by
  refine ⟨?_, ?_, ?_, ?_⟩ <;> simp [LRUCache.init, LRUCache.keys, sizesSum]

theorem remove_entry_inv {c : LRUCache} (h : CacheInv c) (k : String) :
    CacheInv (c.remove_entry k) := by
  unfold LRUCache.remove_entry
  cases hf : alistFind k c.cache with
  | none => exact h
  | some e =>
      refine ⟨?_, ?_, ?_, ?_⟩
      · simpa [LRUCache.keys, alistErase_keys] using (h.nodup.erase k)
      · simp [sizesSum_erase hf, h.total_eq]
      · have := sizesSum_nonneg (alistErase k c.cache)
        have heq := sizesSum_erase hf
        have := h.total_le
        have := h.total_eq
        simp only
        omega
      · intro kv hkv
        exact h.sizes_ok kv ((alistErase_sublist k c.cache).mem hkv)

theorem remove_entry_fields (c : LRUCache) (k : String) :
    (c.remove_entry k).max_size = c.max_size ∧
    (c.remove_entry k).max_memory_bytes = c.max_memory_bytes ∧
    (c.remove_entry k).default_ttl = c.default_ttl ∧
    (c.remove_entry k).related_keys = c.related_keys := by
  unfold LRUCache.remove_entry
  cases alistFind k c.cache <;> simp

theorem remove_entry_find_none {c : LRUCache} (h : CacheInv c) (k : String) :
    alistFind k (c.remove_entry k).cache = none := by
  unfold LRUCache.remove_entry
  cases hf : alistFind k c.cache with
  | none => exact hf
  | some e =>
      rw [alistFind_eq_none_iff]
      simp only
      rw [alistErase_keys]
      exact (h.nodup).not_mem_erase

theorem remove_entry_find_none_of_none {c : LRUCache} {k : String}
    (h : alistFind k c.cache = none) (k' : String) :
    alistFind k (c.remove_entry k').cache = none := by
  unfold LRUCache.remove_entry
  cases hf : alistFind k' c.cache with
  | none => exact h
  | some e =>
      rw [alistFind_eq_none_iff] at h ⊢
      simp only
      rw [alistErase_keys]
      intro hmem
      exact h (List.mem_of_mem_erase hmem)

theorem evict_lru_inv {c c' : LRUCache} (h : CacheInv c)
    (he : c.evict_lru = some c') : CacheInv c' := by
  unfold LRUCache.evict_lru at he
  cases hc : c.cache with
  | nil => rw [hc] at he; simp at he
  | cons hd tl =>
      rw [hc] at he
      obtain ⟨k, e⟩ := hd
      simp at he
      have hinv := remove_entry_inv h k
      rw [← he]
      exact ⟨hinv.nodup, hinv.total_eq, hinv.total_le, hinv.sizes_ok⟩

theorem evict_lru_fields {c c' : LRUCache} (he : c.evict_lru = some c') :
    c'.max_size = c.max_size ∧ c'.max_memory_bytes = c.max_memory_bytes ∧
    c'.default_ttl = c.default_ttl := by
  unfold LRUCache.evict_lru at he
  cases hc : c.cache with
  | nil => rw [hc] at he; simp at he
  | cons hd tl =>
      rw [hc] at he
      obtain ⟨k, e⟩ := hd
      simp at he
      obtain ⟨h1, h2, h3, _⟩ := remove_entry_fields c k
      rw [← he]
      exact ⟨h1, h2, h3⟩

theorem evict_lru_find_none {c c' : LRUCache} {k : String}
    (h : alistFind k c.cache = none) (he : c.evict_lru = some c') :
    alistFind k c'.cache = none := by
  unfold LRUCache.evict_lru at he
  cases hc : c.cache with
  | nil => rw [hc] at he; simp at he
  | cons hd tl =>
      rw [hc] at he
      obtain ⟨k0, e⟩ := hd
      simp at he
      rw [← he]
      exact remove_entry_find_none_of_none h k0


theorem make_space_inv {c : LRUCache} (h : CacheInv c) (fuel sz : Nat) :
    CacheInv (LRUCache.make_space fuel c sz).2 := by
  induction fuel generalizing c with
  | zero => simpa [LRUCache.make_space] using h
  | succ n ih =>
      rw [LRUCache.make_space]
      split
      · cases he : c.evict_lru with
        | none => simpa using h
        | some c' => simpa using ih (evict_lru_inv h he)
      · simpa using h

theorem make_space_fields (c : LRUCache) (fuel sz : Nat) :
    (LRUCache.make_space fuel c sz).2.max_size = c.max_size ∧
    (LRUCache.make_space fuel c sz).2.max_memory_bytes = c.max_memory_bytes ∧
    (LRUCache.make_space fuel c sz).2.default_ttl = c.default_ttl := by
  induction fuel generalizing c with
  | zero => simp [LRUCache.make_space]
  | succ n ih =>
      rw [LRUCache.make_space]
      split
      · cases he : c.evict_lru with
        | none => simp
        | some c' =>
            obtain ⟨h1, h2, h3⟩ := evict_lru_fields he
            simpa [h1, h2, h3] using ih c'
      · simp

theorem make_space_find_none {c : LRUCache} {k : String}
    (h : alistFind k c.cache = none) (fuel sz : Nat) :
    alistFind k (LRUCache.make_space fuel c sz).2.cache = none := by
  induction fuel generalizing c with
  | zero => simpa [LRUCache.make_space] using h
  | succ n ih =>
      rw [LRUCache.make_space]
      split
      · cases he : c.evict_lru with
        | none => simpa using h
        | some c' => simpa using ih (evict_lru_find_none h he)
      · simpa using h

theorem make_space_true {c : LRUCache} {fuel sz : Nat}
    (h : (LRUCache.make_space fuel c sz).1 = true) :
    (LRUCache.make_space fuel c sz).2.cache.length < c.max_size ∧
    (LRUCache.make_space fuel c sz).2.total_size + (sz : Int) ≤ (c.max_memory_bytes : Int) := by
  induction fuel generalizing c with
  | zero => simp [LRUCache.make_space] at h
  | succ n ih =>
      rw [LRUCache.make_space] at h ⊢
      by_cases hcond : c.cache.length ≥ c.max_size ∨
          c.total_size + (sz : Int) > (c.max_memory_bytes : Int)
      · rw [if_pos hcond] at h ⊢
        cases he : c.evict_lru with
        | none => rw [he] at h; simp at h
        | some c' =>
            rw [he] at h
            obtain ⟨h1, h2, _⟩ := evict_lru_fields he
            exact ⟨h1 ▸ (ih h).1, h2 ▸ (ih h).2⟩
      · rw [if_neg hcond] at h ⊢
        push_neg at hcond
        exact ⟨hcond.1, hcond.2⟩

theorem put_inv {c : LRUCache} (h : CacheInv c) (now : Int) (k : String)
    (v : PyVal) (ttl : Option Int) : CacheInv (LRUCache.put now k v ttl c).2 := by
  by_cases hsize : (CacheEntry.mk' now v).size_bytes > c.max_memory_bytes
  · simpa [LRUCache.put, hsize] using h
  · have h1 : CacheInv (c.remove_entry k) := remove_entry_inv h k
    have hnone : alistFind k (c.remove_entry k).cache = none := remove_entry_find_none h k
    cases hms : LRUCache.make_space ((c.remove_entry k).cache.length + 1) (c.remove_entry k)
        (CacheEntry.mk' now v).size_bytes with
    | mk ok c2 =>
        have hinv2 : CacheInv c2 := by
          have := make_space_inv h1 ((c.remove_entry k).cache.length + 1)
            (CacheEntry.mk' now v).size_bytes
          rwa [hms] at this
        cases ok with
        | false => simpa [LRUCache.put, hsize, hms] using hinv2
        | true =>
            have hnone2 : alistFind k c2.cache = none := by
              have := make_space_find_none hnone ((c.remove_entry k).cache.length + 1)
                (CacheEntry.mk' now v).size_bytes
              rwa [hms] at this
            have htrue := make_space_true (c := c.remove_entry k) (by rw [hms] :
              (LRUCache.make_space ((c.remove_entry k).cache.length + 1) (c.remove_entry k)
                (CacheEntry.mk' now v).size_bytes).1 = true)
            rw [hms] at htrue
            have hfields := make_space_fields (c.remove_entry k)
              ((c.remove_entry k).cache.length + 1) (CacheEntry.mk' now v).size_bytes
            rw [hms] at hfields
            obtain ⟨hf1, hf2, hf3⟩ := hfields
            obtain ⟨hr1, hr2, hr3, _⟩ := remove_entry_fields c k
            simp only at htrue hf1 hf2 hf3
            simp only [LRUCache.put, hsize, hms, if_false, decide_False, Bool.false_eq_true,
              ite_false, gt_iff_lt, not_lt.mpr (le_of_not_lt hsize)]
            refine ⟨?_, ?_, ?_, ?_⟩
            · simp only [LRUCache.keys, List.map_append, List.map_cons, List.map_nil]
              rw [List.nodup_append]
              refine ⟨hinv2.nodup, List.nodup_singleton k, ?_⟩
              intro a ha hb
              simp at hb
              subst hb
              rw [alistFind_eq_none_iff] at hnone2
              exact hnone2 ha
            · simp only [sizesSum_append, sizesSum_cons, sizesSum_nil]
              rw [hinv2.total_eq]
              ring
            · have hle := htrue.2
              simp only
              omega

            · intro kv hkv
              simp only [List.mem_append, List.mem_singleton] at hkv
              rcases hkv with hkv | hkv
              · exact hinv2.sizes_ok kv hkv
              · subst hkv
                rfl

theorem get_inv {c : LRUCache} (h : CacheInv c) (now : Int) (k : String) :
    CacheInv (LRUCache.get now k c).2 := by
  cases hf : alistFind k c.cache with
  | none =>
      simp only [LRUCache.get, hf]
      exact ⟨h.nodup, h.total_eq, h.total_le, h.sizes_ok⟩
  | some e =>
      by_cases hexp : e.is_expired now c.default_ttl = true
      · simp only [LRUCache.get, hf, hexp, if_true]
        exact remove_entry_inv h k
      · simp only [LRUCache.get, hf, hexp, if_false, Bool.false_eq_true]
        refine ⟨?_, ?_, ?_, ?_⟩
        · simp only [LRUCache.keys, List.map_append, List.map_cons, List.map_nil]
          rw [List.nodup_append]
          refine ⟨by simpa [LRUCache.keys, alistErase_keys] using h.nodup.erase k,
            List.nodup_singleton k, ?_⟩
          intro a ha hb
          simp at hb
          subst hb
          rw [alistErase_keys] at ha
          exact (h.nodup).not_mem_erase ha
        · simp only [sizesSum_append, sizesSum_cons, sizesSum_nil, sizesSum_erase hf]
          rw [h.total_eq]
          ring
        · exact h.total_le
        · intro kv hkv
          simp only [List.mem_append, List.mem_singleton] at hkv
          rcases hkv with hkv | hkv
          · exact h.sizes_ok kv ((alistErase_sublist k c.cache).mem hkv)
          · subst hkv
            simpa using h.sizes_ok (k, e) (alistFind_mem hf)

theorem invalidate_fold_inv (rel : List String) (acc : List String × LRUCache)
    (h : CacheInv acc.2) :
    CacheInv (rel.foldl
      (fun acc rk =>
        if (alistFind rk acc.2.cache).isSome then
          (acc.1 ++ [rk], acc.2.remove_entry rk)
        else acc)
      acc).2 := by
  induction rel generalizing acc with
  | nil => simpa using h
  | cons hd tl ih =>
      simp only [List.foldl_cons]
      by_cases hf : (alistFind hd acc.2.cache).isSome
      · simp only [hf, if_true]
        exact ih _ (remove_entry_inv h hd)
      · simp only [hf, if_false]
        exact ih _ h

theorem invalidate_related_inv {c : LRUCache} (h : CacheInv c) (k : String) :
    CacheInv (LRUCache.invalidate_related k c).2 := by
  unfold LRUCache.invalidate_related
  apply invalidate_fold_inv
  by_cases hf : (alistFind k c.cache).isSome
  · simp only [hf, if_true]
    exact remove_entry_inv h k
  · simp only [hf, if_false]
    exact h

theorem remove_fold_inv (ks : List String) (c : LRUCache) (h : CacheInv c) :
    CacheInv (ks.foldl (fun cc k => cc.remove_entry k) c) := by
  induction ks generalizing c with
  | nil => simpa using h
  | cons hd tl ih => exact ih _ (remove_entry_inv h hd)

theorem remove_fold_fields (ks : List String) (c : LRUCache) :
    (ks.foldl (fun cc k => cc.remove_entry k) c).max_size = c.max_size ∧
    (ks.foldl (fun cc k => cc.remove_entry k) c).max_memory_bytes = c.max_memory_bytes ∧
    (ks.foldl (fun cc k => cc.remove_entry k) c).default_ttl = c.default_ttl := by
  induction ks generalizing c with
  | nil => simp
  | cons hd tl ih =>
      simp only [List.foldl_cons]
      obtain ⟨h1, h2, h3, _⟩ := remove_entry_fields c hd
      obtain ⟨g1, g2, g3⟩ := ih (c.remove_entry hd)
      exact ⟨g1.trans h1, g2.trans h2, g3.trans h3⟩

theorem optimize_cache_inv {c : LRUCache} (h : CacheInv c) (now : Int) :
    CacheInv (LRUCache.optimize_cache now c).2 := by
  unfold LRUCache.optimize_cache
  have hfold := remove_fold_inv
    (((c.cache.filter (fun kv => now - kv.2.last_access > 3600)).map Prod.fst)) c h
  exact ⟨hfold.nodup, hfold.total_eq, hfold.total_le, hfold.sizes_ok⟩

theorem clear_inv (c : LRUCache) : CacheInv (LRUCache.clear c) := by
  refine ⟨?_, ?_, ?_, ?_⟩ <;> simp [LRUCache.clear, LRUCache.keys, sizesSum]

theorem add_related_key_inv {c : LRUCache} (h : CacheInv c) (k1 k2 : String) :
    CacheInv (LRUCache.add_related_key k1 k2 c) := by
  exact ⟨h.nodup, h.total_eq, h.total_le, h.sizes_ok⟩

theorem applyCacheOp_inv {c : LRUCache} (h : CacheInv c) (op : CacheOp) :
    CacheInv (applyCacheOp c op) := by
  cases op with
  | put now k v ttl => exact put_inv h now k v ttl
  | get now k => exact get_inv h now k
  | invalidate_related k => exact invalidate_related_inv h k
  | add_related_key k1 k2 => exact add_related_key_inv h k1 k2
  | optimize now => exact optimize_cache_inv h now
  | clear => exact clear_inv c

/-- Running a sequence of cache operations from a fresh cache. -/
def runCacheOps (max_size max_memory_bytes : Nat) (default_ttl : Int)
    (ops : List CacheOp) : LRUCache :=
  ops.foldl applyCacheOp (LRUCache.init max_size max_memory_bytes default_ttl)

theorem foldl_applyCacheOp_inv {c : LRUCache} (h : CacheInv c) (ops : List CacheOp) :
    CacheInv (ops.foldl applyCacheOp c) := by
  induction ops generalizing c with
  | nil => simpa using h
  | cons hd tl ih => exact ih (applyCacheOp_inv h hd)

theorem invalidate_fold_mmb (rel : List String) (acc : List String × LRUCache) :
    (rel.foldl
      (fun acc rk =>
        if (alistFind rk acc.2.cache).isSome then
          (acc.1 ++ [rk], acc.2.remove_entry rk)
        else acc)
      acc).2.max_memory_bytes = acc.2.max_memory_bytes := by
  induction rel generalizing acc with
  | nil => simp
  | cons hd tl ih =>
      simp only [List.foldl_cons]
      by_cases hf : (alistFind hd acc.2.cache).isSome
      · simp only [hf, if_true]
        rw [ih]
        exact (remove_entry_fields acc.2 hd).2.1
      · simp only [hf, if_false]
        exact ih acc

theorem applyCacheOp_mmb (c : LRUCache) (op : CacheOp) :
    (applyCacheOp c op).max_memory_bytes = c.max_memory_bytes := by
  cases op with
  | put now k v ttl =>
      by_cases hsize : (CacheEntry.mk' now v).size_bytes > c.max_memory_bytes
      · simp [applyCacheOp, LRUCache.put, hsize]
      · cases hms : LRUCache.make_space ((c.remove_entry k).cache.length + 1)
            (c.remove_entry k) (CacheEntry.mk' now v).size_bytes with
        | mk ok c2 =>
            have hf2 : c2.max_memory_bytes = c.max_memory_bytes := by
              have := (make_space_fields (c.remove_entry k)
                ((c.remove_entry k).cache.length + 1) (CacheEntry.mk' now v).size_bytes).2.1
              rw [hms] at this
              simpa [(remove_entry_fields c k).2.1] using this
            cases ok with
            | false => simpa [applyCacheOp, LRUCache.put, hsize, hms] using hf2
            | true => simpa [applyCacheOp, LRUCache.put, hsize, hms] using hf2
  | get now k =>
      cases hf : alistFind k c.cache with
      | none => simp [applyCacheOp, LRUCache.get, hf]
      | some e =>
          by_cases hexp : e.is_expired now c.default_ttl = true
          · simp only [applyCacheOp, LRUCache.get, hf, hexp, if_true]
            exact (remove_entry_fields c k).2.1
          · simp [applyCacheOp, LRUCache.get, hf, hexp]
  | invalidate_related k =>
      simp only [applyCacheOp, LRUCache.invalidate_related]
      rw [invalidate_fold_mmb]
      by_cases hf : (alistFind k c.cache).isSome
      · simp only [hf, if_true]
        exact (remove_entry_fields c k).2.1
      · simp [hf]
  | add_related_key k1 k2 => simp [applyCacheOp, LRUCache.add_related_key]
  | optimize now =>
      simp only [applyCacheOp, LRUCache.optimize_cache]
      exact (remove_fold_fields _ c).2.1
  | clear => simp [applyCacheOp, LRUCache.clear]

theorem foldl_applyCacheOp_mmb (c : LRUCache) (ops : List CacheOp) :
    (ops.foldl applyCacheOp c).max_memory_bytes = c.max_memory_bytes := by
  induction ops generalizing c with
  | nil => simp
  | cons hd tl ih => simpa [applyCacheOp_mmb c hd] using ih (applyCacheOp c hd)

/-- **C2**.  For every sequence of cache operations (`put`, `get`,
`invalidate_related`, `optimize_cache`, `clear`, plus `add_related_key`)
run from a fresh cache, after each operation the recorded total byte counter
equals the sum of `size_bytes` over the live entries, that sum never exceeds
the configured byte budget, and every live entry's `size_bytes` is the
deterministic size function of its value.  (Every prefix of `ops` is itself
such a sequence, so this states the invariant after each operation.) -/
theorem C2_byte_budget_invariant (max_size max_memory_bytes : Nat) (default_ttl : Int)
    (ops : List CacheOp) :
    (runCacheOps max_size max_memory_bytes default_ttl ops).total_size =
      sizesSum (runCacheOps max_size max_memory_bytes default_ttl ops).cache ∧
    sizesSum (runCacheOps max_size max_memory_bytes default_ttl ops).cache ≤
      (max_memory_bytes : Int) ∧
    ∀ kv ∈ (runCacheOps max_size max_memory_bytes default_ttl ops).cache,
      kv.2.size_bytes = calculate_size kv.2.value := by
  have hinv : CacheInv (runCacheOps max_size max_memory_bytes default_ttl ops) :=
    foldl_applyCacheOp_inv (CacheInv.init max_size max_memory_bytes default_ttl) ops
  have hmmb : (runCacheOps max_size max_memory_bytes default_ttl ops).max_memory_bytes =
      max_memory_bytes := by
    unfold runCacheOps
    rw [foldl_applyCacheOp_mmb]
    rfl
  refine ⟨hinv.total_eq, ?_, hinv.sizes_ok⟩
  have := hinv.total_le
  rw [hinv.total_eq, hmmb] at this
  exact this

/-! ## C1: ttl behaviour of put/get -/

theorem alistFind_append (k : String) (l1 l2 : List (String × CacheEntry)) :
    alistFind k (l1 ++ l2) =
      match alistFind k l1 with
      | some e => some e
      | none => alistFind k l2 := by
  induction l1 with
  | nil => simp [alistFind]
  | cons hd tl ih =>
      obtain ⟨k', e⟩ := hd
      by_cases h : k' = k
      · simp [alistFind, h]
      · simp [alistFind, h, ih]

theorem put_true_spec {c c1 : LRUCache} (hInv : CacheInv c) {now : Int} {k : String}
    {v : PyVal} {ttl : Option Int}
    (hput : LRUCache.put now k v ttl c = (true, c1)) :
    alistFind k c1.cache = some (CacheEntry.mk' now v) ∧
    c1.default_ttl = c.default_ttl := by
  by_cases hsize : (CacheEntry.mk' now v).size_bytes > c.max_memory_bytes
  · simp [LRUCache.put, hsize] at hput
  · have hnone : alistFind k (c.remove_entry k).cache = none := remove_entry_find_none hInv k
    cases hms : LRUCache.make_space ((c.remove_entry k).cache.length + 1) (c.remove_entry k)
        (CacheEntry.mk' now v).size_bytes with
    | mk ok c2 =>
        cases ok with
        | false => simp [LRUCache.put, hsize, hms] at hput
        | true =>
            simp only [LRUCache.put, hsize, hms, if_false, ite_false, gt_iff_lt,
              not_lt.mpr (le_of_not_lt hsize)] at hput
            have hc1 : _ = c1 := congrArg Prod.snd hput
            simp only at hc1
            have hnone2 : alistFind k c2.cache = none := by
              have := make_space_find_none hnone ((c.remove_entry k).cache.length + 1)
                (CacheEntry.mk' now v).size_bytes
              rwa [hms] at this
            constructor
            · rw [← hc1]
              simp only [alistFind_append, hnone2]
              simp [alistFind]
            · rw [← hc1]
              have hfields := (make_space_fields (c.remove_entry k)
                ((c.remove_entry k).cache.length + 1) (CacheEntry.mk' now v).size_bytes).2.2
              rw [hms] at hfields
              simpa [(remove_entry_fields c k).2.2.1] using hfields

/-- **C1 (amended)**.  The `ttl` argument passed to `put` is ignored by the
code; expiry is governed solely by the cache-wide `default_ttl`: for any
successful `put(key, value, ttl)` at time `t`, a `get(key)` at time `tq`
returns absent exactly when `tq - t` exceeds `default_ttl`, and the stored
value otherwise — whatever `ttl` was passed. -/
theorem C1_ttl_default_only {c c1 : LRUCache} (hInv : CacheInv c) (t tq : Int)
    (k : String) (v : PyVal) (ttl : Option Int)
    (hput : LRUCache.put t k v ttl c = (true, c1)) :
    (tq - t > c.default_ttl → (LRUCache.get tq k c1).1 = none) ∧
    (tq - t ≤ c.default_ttl → (LRUCache.get tq k c1).1 = some v) := by
  obtain ⟨hfind, httl⟩ := put_true_spec hInv hput
  constructor
  · intro hgt
    have hexp : (CacheEntry.mk' t v).is_expired tq c1.default_ttl = true := by
      simp [CacheEntry.is_expired, CacheEntry.mk', httl]
      omega
    simp [LRUCache.get, hfind, hexp]
  · intro hle
    have hexp : (CacheEntry.mk' t v).is_expired tq c1.default_ttl = false := by
      simp [CacheEntry.is_expired, CacheEntry.mk', httl]
      omega
    simp only [LRUCache.get, hfind, hexp, Bool.false_eq_true, if_false, ite_false]
    rfl

/-- **C1 (counterexample)**.  `put("k", "x", ttl=10)` at time 0 into a cache
with `default_ttl = 100`; at time 50 more than the per-entry ttl of 10
seconds has elapsed and the entry was never evicted, yet `get("k")` still
returns the stored value — refuting the claim that the per-entry ttl governs
expiry. -/
theorem C1_per_entry_ttl_ignored :
    (50 : Int) - 0 > 10 ∧
    (LRUCache.get 50 "k"
      (LRUCache.put 0 "k" (PyVal.vstr "x") (some 10)
        (LRUCache.init 100 1000000 100)).2).1 = some (PyVal.vstr "x") := by
  exact ⟨by decide, rfl⟩

/-- Witness for `C1_ttl_default_only` at a concrete input. -/
theorem C1_ttl_default_only_witness :
    (LRUCache.get 60 "k"
      (LRUCache.put 0 "k" (PyVal.vstr "x") none (LRUCache.init 100 1000 50)).2).1 = none ∧
    (LRUCache.get 30 "k"
      (LRUCache.put 0 "k" (PyVal.vstr "x") none (LRUCache.init 100 1000 50)).2).1 =
      some (PyVal.vstr "x") := by
  have h1 := @C1_ttl_default_only (LRUCache.init 100 1000 50)
    ((LRUCache.put 0 "k" (PyVal.vstr "x") none (LRUCache.init 100 1000 50)).2)
    (CacheInv.init 100 1000 50) 0 60 "k" (PyVal.vstr "x") none rfl
  have h2 := @C1_ttl_default_only (LRUCache.init 100 1000 50)
    ((LRUCache.put 0 "k" (PyVal.vstr "x") none (LRUCache.init 100 1000 50)).2)
    (CacheInv.init 100 1000 50) 0 30 "k" (PyVal.vstr "x") none rfl
  exact ⟨h1.1 (by decide), h2.2 (by decide)⟩

/-! ## C4: relation-based invalidation -/

theorem alistFind_erase_ne {k k' : String} (hne : k ≠ k') (l : List (String × CacheEntry)) :
    alistFind k (alistErase k' l) = alistFind k l := by
  induction l with
  | nil => simp [alistErase]
  | cons hd tl ih =>
      obtain ⟨k0, e⟩ := hd
      by_cases h0 : k0 = k'
      · subst h0
        simp [alistErase, alistFind, Ne.symm hne]
      · by_cases h1 : k0 = k
        · subst h1
          simp [alistErase, h0, alistFind]
        · simp [alistErase, h0, alistFind, h1, ih]

theorem remove_entry_find_ne {k k' : String} (hne : k ≠ k') (c : LRUCache) :
    alistFind k (c.remove_entry k').cache = alistFind k c.cache := by
  unfold LRUCache.remove_entry
  cases alistFind k' c.cache with
  | none => rfl
  | some e => simpa using alistFind_erase_ne hne c.cache

theorem invalidate_related_as_fold (k : String) (c : LRUCache) :
    LRUCache.invalidate_related k c =
      ((relFind k c.related_keys).getD []).foldl invalidateStep
        (if (alistFind k c.cache).isSome then ([k], c.remove_entry k) else ([], c)) := rfl

theorem invalidateStep_fold_rel (rel : List String) (acc : List String × LRUCache) :
    (rel.foldl invalidateStep acc).2.related_keys = acc.2.related_keys := by
  induction rel generalizing acc with
  | nil => simp
  | cons hd tl ih =>
      simp only [List.foldl_cons]
      rw [ih]
      unfold invalidateStep
      by_cases hf : (alistFind hd acc.2.cache).isSome
      · simp only [hf, if_true]
        exact (remove_entry_fields acc.2 hd).2.2.2
      · simp [hf]

theorem invalidateStep_fold_default_ttl (rel : List String) (acc : List String × LRUCache) :
    (rel.foldl invalidateStep acc).2.default_ttl = acc.2.default_ttl := by
  induction rel generalizing acc with
  | nil => simp
  | cons hd tl ih =>
      simp only [List.foldl_cons]
      rw [ih]
      unfold invalidateStep
      by_cases hf : (alistFind hd acc.2.cache).isSome
      · simp only [hf, if_true]
        exact (remove_entry_fields acc.2 hd).2.2.1
      · simp [hf]

theorem invalidateStep_fold_find_none (rel : List String) (acc : List String × LRUCache)
    {x : String} (hx : alistFind x acc.2.cache = none) :
    alistFind x (rel.foldl invalidateStep acc).2.cache = none := by
  induction rel generalizing acc with
  | nil => simpa using hx
  | cons hd tl ih =>
      simp only [List.foldl_cons]
      apply ih
      unfold invalidateStep
      by_cases hf : (alistFind hd acc.2.cache).isSome
      · simp only [hf, if_true]
        exact remove_entry_find_none_of_none hx hd
      · simpa [hf] using hx

theorem invalidateStep_fold_acc_prefix (rel : List String) (acc : List String × LRUCache) :
    ∃ ext, (rel.foldl invalidateStep acc).1 = acc.1 ++ ext := by
  induction rel generalizing acc with
  | nil => exact ⟨[], by simp⟩
  | cons hd tl ih =>
      simp only [List.foldl_cons]
      unfold invalidateStep
      by_cases hf : (alistFind hd acc.2.cache).isSome
      · simp only [hf, if_true]
        obtain ⟨ext, hext⟩ := ih (acc.1 ++ [hd], acc.2.remove_entry hd)
        exact ⟨hd :: ext, by simpa using hext⟩
      · simpa [hf] using ih acc

theorem invalidateStep_fold_inv (rel : List String) (acc : List String × LRUCache)
    (h : CacheInv acc.2) : CacheInv (rel.foldl invalidateStep acc).2 := by
  induction rel generalizing acc with
  | nil => simpa using h
  | cons hd tl ih =>
      simp only [List.foldl_cons]
      apply ih
      unfold invalidateStep
      by_cases hf : (alistFind hd acc.2.cache).isSome
      · simp only [hf, if_true]
        exact remove_entry_inv h hd
      · simpa [hf] using h

theorem invalidateStep_fold_removes (rel : List String) {b : String} (hb : b ∈ rel)
    (acc : List String × LRUCache) (hInv : CacheInv acc.2)
    (hfind : (alistFind b acc.2.cache).isSome) :
    b ∈ (rel.foldl invalidateStep acc).1 ∧
    alistFind b (rel.foldl invalidateStep acc).2.cache = none := by
  induction rel generalizing acc with
  | nil => simp at hb
  | cons hd tl ih =>
      simp only [List.foldl_cons]
      by_cases hhd : hd = b
      · subst hhd
        have hstep : invalidateStep acc hd = (acc.1 ++ [hd], acc.2.remove_entry hd) := by
          simp [invalidateStep, hfind]
        rw [hstep]
        have hnone : alistFind hd (acc.2.remove_entry hd).cache = none :=
          remove_entry_find_none hInv hd
        refine ⟨?_, invalidateStep_fold_find_none tl _ hnone⟩
        obtain ⟨ext, hext⟩ := invalidateStep_fold_acc_prefix tl (acc.1 ++ [hd], acc.2.remove_entry hd)
        rw [hext]
        simp
      · have hb' : b ∈ tl := by
          rcases List.mem_cons.mp hb with h | h
          · exact absurd h.symm hhd
          · exact h
        by_cases hf : (alistFind hd acc.2.cache).isSome
        · have hstep : invalidateStep acc hd = (acc.1 ++ [hd], acc.2.remove_entry hd) := by
            simp [invalidateStep, hf]
          rw [hstep]
          refine ih hb' (acc.1 ++ [hd], acc.2.remove_entry hd)
            (remove_entry_inv hInv hd) ?_
          simpa [remove_entry_find_ne (show b ≠ hd from fun hh => hhd hh.symm) acc.2] using hfind
        · have hstep : invalidateStep acc hd = acc := by
            simp [invalidateStep, hf]
          rw [hstep]
          exact ih hb' acc hInv hfind

/-- **C4 (amended)**.  With `add_related_key(a, b)` in effect and both keys
cached, `invalidate_related(a)` removes both `a` and `b` from the cache
(neither is retrievable afterwards) and returns both among the removed
keys; contrary to the claim, the relation links (including the reverse
ones) are left in `related_keys` untouched. -/
theorem C4_invalidate_related (c : LRUCache) (hInv : CacheInv c) (a b : String)
    (hab : a ≠ b)
    (hrel : b ∈ (relFind a c.related_keys).getD [])
    (ha : (alistFind a c.cache).isSome)
    (hb : (alistFind b c.cache).isSome) :
    a ∈ (LRUCache.invalidate_related a c).1 ∧
    b ∈ (LRUCache.invalidate_related a c).1 ∧
    (∀ t, (LRUCache.get t a (LRUCache.invalidate_related a c).2).1 = none) ∧
    (∀ t, (LRUCache.get t b (LRUCache.invalidate_related a c).2).1 = none) ∧
    (LRUCache.invalidate_related a c).2.related_keys = c.related_keys := by
  rw [invalidate_related_as_fold]
  simp only [ha, if_true]
  have hstart_inv : CacheInv (([a], c.remove_entry a) : List String × LRUCache).2 :=
    remove_entry_inv hInv a
  have hanone : alistFind a ((c.remove_entry a)).cache = none :=
    remove_entry_find_none hInv a
  have hbfind : (alistFind b (c.remove_entry a).cache).isSome := by
    simpa [remove_entry_find_ne hab.symm c] using hb
  have hrm := invalidateStep_fold_removes ((relFind a c.related_keys).getD []) hrel
    ([a], c.remove_entry a) hstart_inv hbfind
  have hano := invalidateStep_fold_find_none ((relFind a c.related_keys).getD [])
    ([a], c.remove_entry a) hanone
  obtain ⟨ext, hext⟩ := invalidateStep_fold_acc_prefix
    ((relFind a c.related_keys).getD []) ([a], c.remove_entry a)
  refine ⟨?_, hrm.1, ?_, ?_, ?_⟩
  · rw [hext]; simp
  · intro t
    simp [LRUCache.get, hano]
  · intro t
    simp [LRUCache.get, hrm.2]
  · rw [invalidateStep_fold_rel]
    exact (remove_entry_fields c a).2.2.2

/-- **C4 (counterexample)**.  After `add_related_key("a","b")`, caching both
and calling `invalidate_related("a")`, both entries are removed and returned,
but the relation links — including the reverse link from `"b"` to `"a"` —
are still present in `related_keys`, refuting the claim that the reverse
relation links are removed. -/
theorem C4_links_not_removed :
    (LRUCache.invalidate_related "a"
      (LRUCache.put 0 "b" (PyVal.vint 2) none
        (LRUCache.put 0 "a" (PyVal.vint 1) none
          (LRUCache.add_related_key "a" "b" (LRUCache.init 10 1000 100))).2).2).1 =
      ["a", "b"] ∧
    relFind "a" (LRUCache.invalidate_related "a"
      (LRUCache.put 0 "b" (PyVal.vint 2) none
        (LRUCache.put 0 "a" (PyVal.vint 1) none
          (LRUCache.add_related_key "a" "b" (LRUCache.init 10 1000 100))).2).2).2.related_keys =
      some ["b"] ∧
    relFind "b" (LRUCache.invalidate_related "a"
      (LRUCache.put 0 "b" (PyVal.vint 2) none
        (LRUCache.put 0 "a" (PyVal.vint 1) none
          (LRUCache.add_related_key "a" "b" (LRUCache.init 10 1000 100))).2).2).2.related_keys =
      some ["a"] := by
  exact ⟨rfl, rfl, rfl⟩

/-- Witness for `C4_invalidate_related` at a concrete input. -/
theorem C4_invalidate_related_witness :
    "a" ∈ (LRUCache.invalidate_related "a"
      (LRUCache.put 0 "b" (PyVal.vint 2) none
        (LRUCache.put 0 "a" (PyVal.vint 1) none
          (LRUCache.add_related_key "a" "b" (LRUCache.init 10 1000 100))).2).2).1 ∧
    "b" ∈ (LRUCache.invalidate_related "a"
      (LRUCache.put 0 "b" (PyVal.vint 2) none
        (LRUCache.put 0 "a" (PyVal.vint 1) none
          (LRUCache.add_related_key "a" "b" (LRUCache.init 10 1000 100))).2).2).1 ∧
    (LRUCache.get 0 "b" (LRUCache.invalidate_related "a"
      (LRUCache.put 0 "b" (PyVal.vint 2) none
        (LRUCache.put 0 "a" (PyVal.vint 1) none
          (LRUCache.add_related_key "a" "b" (LRUCache.init 10 1000 100))).2).2).2).1 = none := by
  have h := C4_invalidate_related
    (LRUCache.put 0 "b" (PyVal.vint 2) none
      (LRUCache.put 0 "a" (PyVal.vint 1) none
        (LRUCache.add_related_key "a" "b" (LRUCache.init 10 1000 100))).2).2
    (put_inv (put_inv (add_related_key_inv (CacheInv.init 10 1000 100) "a" "b") 0 "a"
      (PyVal.vint 1) none) 0 "b" (PyVal.vint 2) none)
    "a" "b" (by decide) (by decide) (by decide) (by decide)
  exact ⟨h.1, h.2.1, h.2.2.2.1 0⟩

/-! ## C3: LRU eviction order -/

theorem remove_entry_of_none {c : LRUCache} {k : String}
    (h : alistFind k c.cache = none) : c.remove_entry k = c := by
  unfold LRUCache.remove_entry
  rw [h]

theorem alistErase_length {k : String} {l : List (String × CacheEntry)} {e : CacheEntry}
    (h : alistFind k l = some e) : (alistErase k l).length = l.length - 1 := by
  induction l with
  | nil => simp [alistFind] at h
  | cons hd tl ih =>
      obtain ⟨k0, e0⟩ := hd
      by_cases h0 : k0 = k
      · simp [alistErase, h0]
      · simp only [alistFind, h0, if_false, ite_false] at h
        have htl : tl ≠ [] := by
          intro hnil
          rw [hnil] at h
          simp [alistFind] at h
        simp only [alistErase, h0, if_false, ite_false, List.length_cons, ih h]
        have : 1 ≤ tl.length := by
          cases tl
          · exact absurd rfl htl
          · simp
        omega

theorem get_hit_spec {c : LRUCache} {k : String} {e : CacheEntry} (t : Int)
    (hf : alistFind k c.cache = some e)
    (hexp : e.is_expired t c.default_ttl = false) :
    (LRUCache.get t k c).1 = some e.value ∧
    (LRUCache.get t k c).2.cache =
      alistErase k c.cache ++
        [(k, { e with access_count := e.access_count + 1, last_access := t })] ∧
    (LRUCache.get t k c).2.max_size = c.max_size ∧
    (LRUCache.get t k c).2.max_memory_bytes = c.max_memory_bytes ∧
    (LRUCache.get t k c).2.default_ttl = c.default_ttl ∧
    (LRUCache.get t k c).2.total_size = c.total_size := by
  refine ⟨?_, ?_, ?_, ?_, ?_, ?_⟩ <;>
    simp [LRUCache.get, hf, hexp]

theorem make_space_done {c : LRUCache} {sz : Nat} (fuel : Nat)
    (h1 : c.cache.length < c.max_size)
    (h2 : c.total_size + (sz : Int) ≤ (c.max_memory_bytes : Int)) :
    LRUCache.make_space (fuel + 1) c sz = (true, c) := by
  rw [LRUCache.make_space, if_neg]
  push_neg
  exact ⟨h1, h2⟩

theorem make_space_step {c c' : LRUCache} {sz : Nat} (fuel : Nat)
    (h : c.cache.length ≥ c.max_size ∨ c.total_size + (sz : Int) > (c.max_memory_bytes : Int))
    (hev : c.evict_lru = some c') :
    LRUCache.make_space (fuel + 1) c sz = LRUCache.make_space fuel c' sz := by
  rw [LRUCache.make_space, if_pos h, hev]

theorem put_evict_one {c : LRUCache} (hInv : CacheInv c) (t : Int) (k' : String) (v : PyVal)
    (hlen : c.cache.length = c.max_size)
    (hpos : 1 ≤ c.max_size)
    (hnew : alistFind k' c.cache = none)
    (hsz : calculate_size v ≤ c.max_memory_bytes)
    (hmem : sizesSum c.cache.tail + (calculate_size v : Int) ≤ (c.max_memory_bytes : Int)) :
    (LRUCache.put t k' v none c).1 = true ∧
    (LRUCache.put t k' v none c).2.cache = c.cache.tail ++ [(k', CacheEntry.mk' t v)] := by
  cases hc : c.cache with
  | nil =>
      rw [hc] at hlen
      simp at hlen
      omega
  | cons hd rest =>
      obtain ⟨k0, e0⟩ := hd
      have hfind0 : alistFind k0 c.cache = some e0 := by
        rw [hc]; simp [alistFind]
      have hremove0 : c.remove_entry k0 =
          { c with cache := rest, total_size := c.total_size - (e0.size_bytes : Int) } := by
        unfold LRUCache.remove_entry
        rw [hfind0, hc]
        simp [alistErase]
      have hev : c.evict_lru = some
          { c with cache := rest, total_size := c.total_size - (e0.size_bytes : Int),
                   eviction_count := c.eviction_count + 1 } := by
        unfold LRUCache.evict_lru
        rw [hc]
        simp only [hremove0]
      have hsum : c.total_size = (e0.size_bytes : Int) + sizesSum rest := by
        rw [hInv.total_eq, hc, sizesSum_cons]
      have hrestlen : rest.length + 1 = c.max_size := by
        rw [← hlen, hc]; simp
      have hmem' : sizesSum rest + (calculate_size v : Int) ≤ (c.max_memory_bytes : Int) := by
        rw [hc] at hmem
        simpa using hmem
      have hms : LRUCache.make_space (c.cache.length + 1) c (calculate_size v) =
          (true, { c with cache := rest, total_size := c.total_size - (e0.size_bytes : Int),
                          eviction_count := c.eviction_count + 1 }) := by
        rw [make_space_step c.cache.length (Or.inl (by omega)) hev]
        rw [hc]
        simp only [List.length_cons]
        exact make_space_done rest.length
          (show rest.length < c.max_size by omega)
          (show c.total_size - (e0.size_bytes : Int) + (calculate_size v : Int) ≤
            (c.max_memory_bytes : Int) by omega)
      have hsize : ¬ (CacheEntry.mk' t v).size_bytes > c.max_memory_bytes := by
        simp [CacheEntry.mk']
        omega
      have hput : LRUCache.put t k' v none c =
          (true, { c with
            cache := rest ++ [(k', CacheEntry.mk' t v)],
            total_size := c.total_size - (e0.size_bytes : Int) +
              ((CacheEntry.mk' t v).size_bytes : Int),
            eviction_count := c.eviction_count + 1 }) := by
        simp only [LRUCache.put, hsize, if_false, ite_false, gt_iff_lt, Bool.false_eq_true]
        rw [remove_entry_of_none hnew]
        have hsz_eq : (CacheEntry.mk' t v).size_bytes = calculate_size v := rfl
        rw [hsz_eq, hms]
      rw [hput]
      refine ⟨rfl, ?_⟩
      simp

theorem map_fst_tail (l : List (String × CacheEntry)) :
    (l.map Prod.fst).tail = l.tail.map Prod.fst := by
  cases l <;> simp

/-- **C3**.  With the cache at `max_entries` capacity (at least 2), a
successful `get(a)` counts as a use: it moves `a` to the most recently used
position, so the overflow insert of a distinct new key evicts exactly the
least-recently-used key — the head of the post-`get` recency order — while
`a` survives.  (The byte budget is assumed non-binding, so exactly one
entry is evicted.) -/
theorem C3_lru_eviction {c : LRUCache} (hInv : CacheInv c) (t tp : Int) (a k' : String)
    (v : PyVal) {e : CacheEntry}
    (ha : alistFind a c.cache = some e)
    (hexp : e.is_expired t c.default_ttl = false)
    (hcap : c.cache.length = c.max_size)
    (h2 : 2 ≤ c.max_size)
    (hnew : alistFind k' c.cache = none)
    (hsz : calculate_size v ≤ c.max_memory_bytes)
    (hmem : sizesSum ((LRUCache.get t a c).2.cache.tail) + (calculate_size v : Int) ≤
      (c.max_memory_bytes : Int)) :
    (LRUCache.get t a c).1 = some e.value ∧
    (LRUCache.put tp k' v none (LRUCache.get t a c).2).1 = true ∧
    LRUCache.keys (LRUCache.put tp k' v none (LRUCache.get t a c).2).2 =
      (LRUCache.keys (LRUCache.get t a c).2).tail ++ [k'] ∧
    a ∈ LRUCache.keys (LRUCache.put tp k' v none (LRUCache.get t a c).2).2 := by
  obtain ⟨hv, hcache1, hms1, hmb1, _, _⟩ := get_hit_spec t ha hexp
  have hInv1 : CacheInv (LRUCache.get t a c).2 := get_inv hInv t a
  have hposlen : 1 ≤ c.cache.length := by
    have := alistFind_mem ha
    cases hcc : c.cache
    · rw [hcc] at this; simp at this
    · simp [hcc]
  have hlen1 : (LRUCache.get t a c).2.cache.length = (LRUCache.get t a c).2.max_size := by
    rw [hcache1, hms1, List.length_append]
    simp only [List.length_cons, List.length_nil]
    rw [alistErase_length ha]
    omega
  have hka : k' ≠ a := by
    intro h
    rw [h, ha] at hnew
    cases hnew
  have hnew1 : alistFind k' (LRUCache.get t a c).2.cache = none := by
    rw [hcache1, alistFind_append, alistFind_erase_ne hka c.cache, hnew]
    simp [alistFind, Ne.symm hka]
  have hpos1 : 1 ≤ (LRUCache.get t a c).2.max_size := by rw [hms1]; omega
  have hsz1 : calculate_size v ≤ (LRUCache.get t a c).2.max_memory_bytes := by
    rw [hmb1]; exact hsz
  have hmem1 : sizesSum ((LRUCache.get t a c).2.cache.tail) + (calculate_size v : Int) ≤
      ((LRUCache.get t a c).2.max_memory_bytes : Int) := by
    rw [hmb1]; exact hmem
  obtain ⟨hok, hcache2⟩ := put_evict_one hInv1 tp k' v hlen1 hpos1 hnew1 hsz1 hmem1
  have hkeys2 : LRUCache.keys (LRUCache.put tp k' v none (LRUCache.get t a c).2).2 =
      (LRUCache.keys (LRUCache.get t a c).2).tail ++ [k'] := by
    unfold LRUCache.keys
    rw [hcache2, map_fst_tail]
    simp
  refine ⟨hv, hok, hkeys2, ?_⟩
  rw [hkeys2]
  have hkeys1 : LRUCache.keys (LRUCache.get t a c).2 =
      (alistErase a c.cache).map Prod.fst ++ [a] := by
    unfold LRUCache.keys
    rw [hcache1]
    simp
  have hElen : 1 ≤ ((alistErase a c.cache).map Prod.fst).length := by
    rw [List.length_map, alistErase_length ha]
    omega
  cases hkE : (alistErase a c.cache).map Prod.fst with
  | nil => rw [hkE] at hElen; simp at hElen
  | cons x xs =>
      rw [hkeys1, hkE]
      simp

/-- Witness for `C3_lru_eviction`: a 2-entry cache holding `a` then `b`;
`get("a")` protects `a`, and inserting `"c"` evicts `b`, the
least-recently-used key, not `a`. -/
theorem C3_lru_eviction_witness :
    (LRUCache.put 1 "c" (PyVal.vint 3) none
      (LRUCache.get 1 "a" (LRUCache.put 0 "b" (PyVal.vint 2) none
        (LRUCache.put 0 "a" (PyVal.vint 1) none
          (LRUCache.init 2 1000000 100)).2).2).2).1 = true ∧
    LRUCache.keys (LRUCache.put 1 "c" (PyVal.vint 3) none
      (LRUCache.get 1 "a" (LRUCache.put 0 "b" (PyVal.vint 2) none
        (LRUCache.put 0 "a" (PyVal.vint 1) none
          (LRUCache.init 2 1000000 100)).2).2).2).2 =
      (LRUCache.keys (LRUCache.get 1 "a" (LRUCache.put 0 "b" (PyVal.vint 2) none
        (LRUCache.put 0 "a" (PyVal.vint 1) none
          (LRUCache.init 2 1000000 100)).2).2).2).tail ++ ["c"] ∧
    "a" ∈ LRUCache.keys (LRUCache.put 1 "c" (PyVal.vint 3) none
      (LRUCache.get 1 "a" (LRUCache.put 0 "b" (PyVal.vint 2) none
        (LRUCache.put 0 "a" (PyVal.vint 1) none
          (LRUCache.init 2 1000000 100)).2).2).2).2 := by
  have h := C3_lru_eviction
    (c := (LRUCache.put 0 "b" (PyVal.vint 2) none
      (LRUCache.put 0 "a" (PyVal.vint 1) none (LRUCache.init 2 1000000 100)).2).2)
    (put_inv (put_inv (CacheInv.init 2 1000000 100) 0 "a" (PyVal.vint 1) none)
      0 "b" (PyVal.vint 2) none)
    1 1 "a" "c" (PyVal.vint 3)
    (e := CacheEntry.mk' 0 (PyVal.vint 1))
    rfl (by decide) rfl (by decide) rfl (by decide) (by decide)
  exact ⟨h.2.1, h.2.2.1, h.2.2.2⟩

/-! ## C5: circuit breaker -/

theorem breakerFind_assign_self (op : String) (b : Breaker) (l : List (String × Breaker)) :
    breakerFind op (breakerAssign op b l) = some b := by
  induction l with
  | nil => simp [breakerAssign, breakerFind]
  | cons hd tl ih =>
      obtain ⟨op', b'⟩ := hd
      by_cases h : op' = op
      · simp [breakerAssign, breakerFind, h]
      · simp [breakerAssign, breakerFind, h, ih]

theorem breakerFind_setState (op : String) (st : BreakerState) (l : List (String × Breaker)) :
    breakerFind op (breakerSetState op st l) =
      (breakerFind op l).map (fun b => { b with state := st }) := by
  induction l with
  | nil => simp [breakerSetState, breakerFind]
  | cons hd tl ih =>
      obtain ⟨op', b'⟩ := hd
      by_cases h : op' = op
      · simp [breakerSetState, breakerFind, h]
      · simp [breakerSetState, breakerFind, h, ih]

/-- **C5 (amended)**.  After `trip_circuit_breaker(op, timeout)` at `t0`,
`check_circuit_breaker(op)` returns false at every instant up to and
including `t0 + timeout`; once strictly more than `timeout` seconds have
elapsed it returns true and moves the breaker to half-open — and, contrary
to the claim, it keeps returning true on every further check while
half-open, not exactly once.  A failure (a new trip) while half-open
returns the breaker to open, and a success (`reset_circuit_breaker`)
returns it to closed. -/
theorem C5_circuit_breaker (m : ErrorRecoveryManager) (op : String) (t0 timeout : Int) :
    (∀ t, t - t0 ≤ timeout →
      ((m.trip_circuit_breaker t0 op timeout).check_circuit_breaker t op).1 = false) ∧
    (∀ t, t - t0 > timeout →
      ((m.trip_circuit_breaker t0 op timeout).check_circuit_breaker t op).1 = true ∧
      breakerFind op
        ((m.trip_circuit_breaker t0 op timeout).check_circuit_breaker t op).2.circuit_breakers =
        some { state := .halfOpen, tripped_at := t0, timeout_seconds := timeout }) ∧
    (∀ t t', t - t0 > timeout → t' - t0 > timeout →
      ((((m.trip_circuit_breaker t0 op timeout).check_circuit_breaker t op).2).check_circuit_breaker
        t' op).1 = true) ∧
    (∀ t t2 to2, t - t0 > timeout →
      breakerFind op
        ((((m.trip_circuit_breaker t0 op timeout).check_circuit_breaker t op).2).trip_circuit_breaker
          t2 op to2).circuit_breakers =
        some { state := .tripped, tripped_at := t2, timeout_seconds := to2 }) ∧
    (∀ t, t - t0 > timeout →
      breakerFind op
        ((((m.trip_circuit_breaker t0 op timeout).check_circuit_breaker t op).2).reset_circuit_breaker
          op).circuit_breakers =
        some { state := .closed, tripped_at := t0, timeout_seconds := timeout }) := by
  have hfind : breakerFind op (m.trip_circuit_breaker t0 op timeout).circuit_breakers =
      some { state := .tripped, tripped_at := t0, timeout_seconds := timeout } := by
    unfold ErrorRecoveryManager.trip_circuit_breaker
    exact breakerFind_assign_self op _ m.circuit_breakers
  have hopen : ∀ t, t - t0 > timeout →
      ((m.trip_circuit_breaker t0 op timeout).check_circuit_breaker t op) =
        (true, { m.trip_circuit_breaker t0 op timeout with
          circuit_breakers := breakerSetState op .halfOpen
            (m.trip_circuit_breaker t0 op timeout).circuit_breakers }) := by
    intro t ht
    unfold ErrorRecoveryManager.check_circuit_breaker
    rw [hfind]
    simp only [if_pos ht]
    simp
  refine ⟨?_, ?_, ?_, ?_, ?_⟩
  · intro t ht
    unfold ErrorRecoveryManager.check_circuit_breaker
    rw [hfind]
    simp only
    rw [if_neg (by simp), if_neg (by omega)]
  · intro t ht
    rw [hopen t ht]
    constructor
    · rfl
    · simp only
      rw [breakerFind_setState, hfind]
      rfl
  · intro t t' ht ht'
    rw [hopen t ht]
    unfold ErrorRecoveryManager.check_circuit_breaker
    simp only
    rw [breakerFind_setState, hfind]
    simp [ht']
  · intro t t2 to2 ht
    rw [hopen t ht]
    unfold ErrorRecoveryManager.trip_circuit_breaker
    simp only
    exact breakerFind_assign_self op _ _
  · intro t ht
    rw [hopen t ht]
    unfold ErrorRecoveryManager.reset_circuit_breaker
    simp only
    rw [breakerFind_setState, breakerFind_setState, hfind]
    rfl

/-- **C5 (counterexample)**.  Trip at time 0 with a 10 second timeout: the
checks at times 11 and 12 BOTH return true (the breaker stays half-open and
the elapsed test keeps passing), refuting "returns true exactly once". -/
theorem C5_true_more_than_once :
    (((ErrorRecoveryManager.init 50).trip_circuit_breaker 0 "op" 10).check_circuit_breaker
      11 "op").1 = true ∧
    (((((ErrorRecoveryManager.init 50).trip_circuit_breaker 0 "op" 10).check_circuit_breaker
      11 "op").2).check_circuit_breaker 12 "op").1 = true ∧
    breakerFind "op"
      ((((ErrorRecoveryManager.init 50).trip_circuit_breaker 0 "op" 10).check_circuit_breaker
        11 "op").2).circuit_breakers =
      some { state := .halfOpen, tripped_at := 0, timeout_seconds := 10 } := by
  exact ⟨rfl, rfl, rfl⟩

/-- Witness for `C5_circuit_breaker` at a concrete input. -/
theorem C5_circuit_breaker_witness :
    (((ErrorRecoveryManager.init 50).trip_circuit_breaker 0 "op" 10).check_circuit_breaker
      5 "op").1 = false ∧
    (((ErrorRecoveryManager.init 50).trip_circuit_breaker 0 "op" 10).check_circuit_breaker
      11 "op").1 = true := by
  have h := C5_circuit_breaker (ErrorRecoveryManager.init 50) "op" 0 10
  exact ⟨h.1 5 (by decide), (h.2.1 11 (by decide)).1⟩

/-! ## C7: conversation turn trimming -/

theorem add_turn_turns (cv : Conversation) (r : TurnReq) :
    (cv.add_turn r.now r.user_message r.assistant_response r.context r.reasoning).turns =
      (cv.turns ++ [r.toTurn]).drop ((cv.turns.length + 1) - cv.max_turns) := by
  unfold Conversation.add_turn
  by_cases h : (cv.turns ++ [r.toTurn]).length > cv.max_turns
  · simp only [List.length_append, List.length_cons, List.length_nil] at h ⊢
    rw [if_pos (by simpa [TurnReq.toTurn] using h)]
    simp [TurnReq.toTurn]
  · simp only [List.length_append, List.length_cons, List.length_nil] at h ⊢
    rw [if_neg (by simpa [TurnReq.toTurn] using h)]
    have : cv.turns.length + 1 - cv.max_turns = 0 := by omega
    simp [TurnReq.toTurn, this]

theorem add_turn_max_turns (cv : Conversation) (r : TurnReq) :
    (cv.add_turn r.now r.user_message r.assistant_response r.context r.reasoning).max_turns =
      cv.max_turns := by
  simp [Conversation.add_turn]

/-- **C7**.  Starting from any conversation within its turn budget, after
any sequence of `add_turn` calls the turn list has length at most
`max_turns` and consists of exactly the most recent `max_turns` turns of
the full append history, whole turns in original order.  (Every prefix of
`reqs` is itself such a sequence, so the bound holds after each append.) -/
theorem C7_turn_trimming (cv : Conversation) (hlen : cv.turns.length ≤ cv.max_turns)
    (reqs : List TurnReq) :
    (cv.add_turns reqs).turns.length ≤ cv.max_turns ∧
    (cv.add_turns reqs).turns =
      (cv.turns ++ reqs.map TurnReq.toTurn).drop
        ((cv.turns.length + reqs.length) - cv.max_turns) := by
  induction reqs generalizing cv with
  | nil =>
      constructor
      · simpa [Conversation.add_turns] using hlen
      · have h0 : cv.turns.length - cv.max_turns = 0 := by omega
        simp [Conversation.add_turns, h0]
  | cons r rest ih =>
      have hstep := add_turn_turns cv r
      have hmax := add_turn_max_turns cv r
      have hlen1 : (cv.add_turn r.now r.user_message r.assistant_response r.context
          r.reasoning).turns.length ≤
          (cv.add_turn r.now r.user_message r.assistant_response r.context r.reasoning).max_turns := by
        rw [hstep, hmax, List.length_drop]
        simp only [List.length_append, List.length_cons, List.length_nil]
        omega
      obtain ⟨ihl, ihe⟩ := ih (cv.add_turn r.now r.user_message r.assistant_response
        r.context r.reasoning) hlen1
      rw [hmax] at ihl ihe
      constructor
      · simpa [Conversation.add_turns] using ihl
      · have hfold : (cv.add_turns (r :: rest)).turns =
            ((cv.add_turn r.now r.user_message r.assistant_response r.context
              r.reasoning).add_turns rest).turns := by
          simp [Conversation.add_turns]
        rw [hfold, ihe, hstep]
        have hdl : ((cv.turns ++ [r.toTurn]).drop ((cv.turns.length + 1) - cv.max_turns)).length =
            (cv.turns.length + 1) - ((cv.turns.length + 1) - cv.max_turns) := by
          rw [List.length_drop]
          simp
        rw [hdl]
        have hd1le : (cv.turns.length + 1) - cv.max_turns ≤ (cv.turns ++ [r.toTurn]).length := by
          simp only [List.length_append, List.length_cons, List.length_nil]
          omega
        rw [← List.drop_append_of_le_length hd1le, List.drop_drop]
        have hshape : (cv.turns ++ [r.toTurn]) ++ rest.map TurnReq.toTurn =
            cv.turns ++ (r :: rest).map TurnReq.toTurn := by
          simp
        rw [hshape]
        congr 1
        simp only [List.length_cons]
        omega

/-- Witness for `C7_turn_trimming`: `max_turns = 2`, three appends leave
exactly the two most recent turns. -/
theorem C7_turn_trimming_witness :
    (Conversation.add_turns
      { id := "c", agent_type := "code_assistant", turns := [], context := none,
        created_at := 0, updated_at := 0, last_activity := 0, max_turns := 2 }
      [⟨1, "u1", "a1", none, none⟩, ⟨2, "u2", "a2", none, none⟩,
        ⟨3, "u3", "a3", none, none⟩]).turns.length ≤ 2 ∧
    (Conversation.add_turns
      { id := "c", agent_type := "code_assistant", turns := [], context := none,
        created_at := 0, updated_at := 0, last_activity := 0, max_turns := 2 }
      [⟨1, "u1", "a1", none, none⟩, ⟨2, "u2", "a2", none, none⟩,
        ⟨3, "u3", "a3", none, none⟩]).turns =
      [⟨2, "u2", "a2", none, none⟩, ⟨3, "u3", "a3", none, none⟩] := by
  have h := C7_turn_trimming
    { id := "c", agent_type := "code_assistant", turns := [], context := none,
      created_at := 0, updated_at := 0, last_activity := 0, max_turns := 2 }
    (by decide)
    [⟨1, "u1", "a1", none, none⟩, ⟨2, "u2", "a2", none, none⟩,
      ⟨3, "u3", "a3", none, none⟩]
  exact ⟨h.1, h.2.trans rfl⟩

/-! ## C8: conversation sweep keeps the most recent by last_activity -/

theorem insertByDesc_perm (key : ConvMeta → Rat) (x : ConvMeta) (l : List ConvMeta) :
    List.Perm (insertByDesc key x l) (x :: l) := by
  induction l with
  | nil => simp [insertByDesc]
  | cons y ys ih =>
      unfold insertByDesc
      by_cases h : key y ≤ key x
      · simp [h]
      · simp only [h, if_false, ite_false]
        exact (ih.cons y).trans (List.Perm.swap x y ys)

theorem sortByDesc_perm (key : ConvMeta → Rat) (l : List ConvMeta) :
    List.Perm (sortByDesc key l) l := by
  induction l with
  | nil => simp [sortByDesc]
  | cons x xs ih => exact (insertByDesc_perm key x _).trans (ih.cons x)

theorem insertByDesc_pairwise (key : ConvMeta → Rat) (x : ConvMeta) {l : List ConvMeta}
    (h : l.Pairwise (fun a b => key b ≤ key a)) :
    (insertByDesc key x l).Pairwise (fun a b => key b ≤ key a) := by
  induction l with
  | nil => simp [insertByDesc]
  | cons y ys ih =>
      unfold insertByDesc
      rcases List.pairwise_cons.mp h with ⟨hy, hys⟩
      by_cases hxy : key y ≤ key x
      · rw [if_pos hxy]
        refine List.pairwise_cons.mpr ⟨?_, h⟩
        intro z hz
        rcases List.mem_cons.mp hz with hz | hz
        · subst hz; exact hxy
        · exact le_trans (hy z hz) hxy
      · rw [if_neg hxy]
        refine List.pairwise_cons.mpr ⟨?_, ih hys⟩
        intro z hz
        have hz' : z ∈ x :: ys := (insertByDesc_perm key x ys).mem_iff.mp hz
        rcases List.mem_cons.mp hz' with hz' | hz'
        · subst hz'
          exact le_of_lt (lt_of_not_le hxy)
        · exact hy z hz'

theorem sortByDesc_pairwise (key : ConvMeta → Rat) (l : List ConvMeta) :
    (sortByDesc key l).Pairwise (fun a b => key b ≤ key a) := by
  induction l with
  | nil => simp [sortByDesc]
  | cons x xs ih => exact insertByDesc_pairwise key x ih

/-- **C8**.  When no conversation is aged out, total memory is within
budget, and the store still holds more conversations than the count
ceiling, the sweep removes conversations oldest-by-`last_activity` first
until exactly `max_conversations` remain: the result has exactly the
ceiling's length, is a sublist (original order) of the store, and every
removed conversation has strictly older `last_activity` than every
survivor. -/
theorem C8_sweep_oldest_first (now : Int) (max_conversations : Nat)
    (max_conversation_age_hours : Int) (max_total_memory_mb : Rat)
    (convs : List ConvMeta)
    (hage : ∀ cm ∈ convs, ¬ cm.last_activity < now - max_conversation_age_hours * 3600)
    (hmem : ¬ ((convs.map (fun c => c.estimated_mb)).sum > max_total_memory_mb))
    (hcount : convs.length > max_conversations)
    (hids : (convs.map (fun c => c.id)).Nodup)
    (hact : (convs.map (fun c => c.last_activity)).Nodup) :
    (cleanup_conversations now max_conversations max_conversation_age_hours
      max_total_memory_mb convs).length = max_conversations ∧
    (cleanup_conversations now max_conversations max_conversation_age_hours
      max_total_memory_mb convs).Sublist convs ∧
    ∀ x ∈ convs,
      x ∉ cleanup_conversations now max_conversations max_conversation_age_hours
        max_total_memory_mb convs →
      ∀ y ∈ cleanup_conversations now max_conversations max_conversation_age_hours
        max_total_memory_mb convs,
      x.last_activity < y.last_activity := by
  have h1 : convs.filter
      (fun c => ¬ c.last_activity < now - max_conversation_age_hours * 3600) = convs := by
    apply List.filter_eq_self.mpr
    intro a ha
    simpa using hage a ha
  have h3 : convs.filter (fun c => ¬ c.id ∈ ([] : List String)) = convs := by
    apply List.filter_eq_self.mpr
    intro a ha
    simp
  have hr : cleanup_conversations now max_conversations max_conversation_age_hours
      max_total_memory_mb convs =
      convs.filter (fun c => ¬ c.id ∈
        (((sortByDesc (fun c => ((c.last_activity : Rat))) convs).drop
          max_conversations).map (fun c => c.id))) := by
    simp only [cleanup_conversations]
    rw [h1, if_neg hmem, h3, if_pos hcount]
  set key : ConvMeta → Rat := fun c => ((c.last_activity : Rat)) with hkey
  set byA := sortByDesc key convs with hbyA
  set T := byA.take max_conversations with hT
  set D := byA.drop max_conversations with hD
  have hperm : List.Perm byA convs := sortByDesc_perm key convs
  have hconvs_nodup : convs.Nodup := List.Nodup.of_map _ hids
  have hbyA_nodup : byA.Nodup := (hperm.nodup_iff).mpr hconvs_nodup
  have hTD : T ++ D = byA := List.take_append_drop _ _
  have hdisj : T.Disjoint D := by
    rw [← hTD] at hbyA_nodup
    exact List.disjoint_of_nodup_append hbyA_nodup
  have hpair : byA.Pairwise (fun a b => key b ≤ key a) := sortByDesc_pairwise key convs
  have hTDle : ∀ y ∈ T, ∀ x ∈ D, key x ≤ key y := by
    rw [← hTD] at hpair
    exact fun y hy x hx => (List.pairwise_append.mp hpair).2.2 y hy x hx
  have hidInj : ∀ x ∈ convs, ∀ y ∈ convs, x.id = y.id → x = y := by
    intro x hx y hy hxy
    exact List.inj_on_of_nodup_map hids hx hy hxy
  have hmemT : ∀ t ∈ T, t ∈ convs := by
    intro t ht
    exact hperm.subset (hTD ▸ List.mem_append_left D ht)
  have hmemD : ∀ d ∈ D, d ∈ convs := by
    intro d hd
    exact hperm.subset (hTD ▸ List.mem_append_right T hd)
  have hq : ∀ c ∈ convs, (c.id ∈ D.map (fun c => c.id)) ↔ c ∈ D := by
    intro c hc
    constructor
    · intro hcd
      obtain ⟨d, hd, hdc⟩ := List.mem_map.mp hcd
      have : c = d := hidInj c hc d (hmemD d hd) hdc.symm
      rw [this]
      exact hd
    · intro hcd
      exact List.mem_map_of_mem _ hcd
  have hfT : T.filter (fun c => ¬ c.id ∈ D.map (fun c => c.id)) = T := by
    apply List.filter_eq_self.mpr
    intro t ht
    have : ¬ t ∈ D := fun hd => hdisj ht hd
    have : ¬ t.id ∈ D.map (fun c => c.id) := fun hid => this ((hq t (hmemT t ht)).mp hid)
    simpa using this
  have hfD : D.filter (fun c => ¬ c.id ∈ D.map (fun c => c.id)) = [] := by
    rw [List.filter_eq_nil_iff]
    intro d hd
    simp only [decide_not, Bool.not_eq_true', decide_eq_false_iff_not, not_not]
    exact List.mem_map_of_mem _ hd
  have hrperm : List.Perm
      (convs.filter (fun c => ¬ c.id ∈ D.map (fun c => c.id))) T := by
    have hp := (hperm.symm).filter (fun c => decide (¬ c.id ∈ D.map (fun c => c.id)))
    rw [← hTD] at hp
    rw [List.filter_append, hfT, hfD, List.append_nil] at hp
    exact hp
  have hlenT : T.length = max_conversations := by
    rw [hT, List.length_take, hperm.length_eq]
    omega
  refine ⟨?_, ?_, ?_⟩
  · rw [hr]
    rw [hrperm.length_eq]
    exact hlenT
  · rw [hr]
    exact List.filter_sublist convs
  · intro x hx hxr y hy
    rw [hr] at hxr hy
    have hxq : ¬ (¬ x.id ∈ D.map (fun c => c.id)) := by
      intro hq'
      exact hxr (List.mem_filter.mpr ⟨hx, by simpa using hq'⟩)
    have hxD : x ∈ D := (hq x hx).mp (not_not.mp hxq)
    have hyT : y ∈ T := hrperm.mem_iff.mp hy
    have hle : key x ≤ key y := hTDle y hyT x hxD
    have hxy : x ≠ y := fun h => hdisj hyT (h ▸ hxD)
    have hlane : x.last_activity ≠ y.last_activity := by
      intro h
      exact hxy (List.inj_on_of_nodup_map hact hx (hmemT y hyT) h)
    have : (x.last_activity : Rat) ≤ (y.last_activity : Rat) := hle
    have hint : x.last_activity ≤ y.last_activity := by exact_mod_cast this
    omega

/-- Witness for `C8_sweep_oldest_first`: ceiling 2, three conversations with
last activities 1 < 2 < 3 — the sweep keeps exactly two and every removed
conversation is older than every survivor. -/
theorem C8_sweep_oldest_first_witness :
    (cleanup_conversations 3 2 24 200
      [⟨"a", 1, 1⟩, ⟨"b", 2, 1⟩, ⟨"c", 3, 1⟩]).length = 2 ∧
    (cleanup_conversations 3 2 24 200
      [⟨"a", 1, 1⟩, ⟨"b", 2, 1⟩, ⟨"c", 3, 1⟩]).Sublist
      [⟨"a", 1, 1⟩, ⟨"b", 2, 1⟩, ⟨"c", 3, 1⟩] ∧
    ∀ x ∈ ([⟨"a", 1, 1⟩, ⟨"b", 2, 1⟩, ⟨"c", 3, 1⟩] : List ConvMeta),
      x ∉ cleanup_conversations 3 2 24 200
        [⟨"a", 1, 1⟩, ⟨"b", 2, 1⟩, ⟨"c", 3, 1⟩] →
      ∀ y ∈ cleanup_conversations 3 2 24 200
        [⟨"a", 1, 1⟩, ⟨"b", 2, 1⟩, ⟨"c", 3, 1⟩],
      x.last_activity < y.last_activity := by
  exact C8_sweep_oldest_first 3 2 24 200
    [⟨"a", 1, 1⟩, ⟨"b", 2, 1⟩, ⟨"c", 3, 1⟩]
    (by decide) (by norm_num [List.sum_cons, List.sum_nil]) (by decide) (by decide) (by decide)

/-! ## C9: graceful degradation threshold -/

theorem record_error_step {m : ErrorRecoveryManager} {t t0 : Int}
    (hwin : ∀ e ∈ m.error_history, t0 ≤ e.timestamp ∧ e.timestamp < t0 + 3600)
    (ht : t0 ≤ t ∧ t < t0 + 3600) :
    (m.record_error t none).error_history =
      m.error_history ++ [({ timestamp := t, attempt := none } : ErrorInfo)] ∧
    (m.record_error t none).max_errors_per_hour = m.max_errors_per_hour ∧
    (m.record_error t none).degraded_features =
      (if m.error_history.length + 1 > m.max_errors_per_hour
        then (triggerDegradation m).degraded_features
        else m.degraded_features) := by
  have hfil : (m.error_history ++ [({ timestamp := t, attempt := none } : ErrorInfo)]).filter
      (fun e => t - 3600 < e.timestamp) =
      m.error_history ++ [({ timestamp := t, attempt := none } : ErrorInfo)] := by
    apply List.filter_eq_self.mpr
    intro e he
    rcases List.mem_append.mp he with he | he
    · have := hwin e he
      simp only [decide_eq_true_eq]
      omega
    · simp only [List.mem_singleton] at he
      subst he
      simp only [decide_eq_true_eq]
      omega
  unfold ErrorRecoveryManager.record_error
  simp only [hfil]
  by_cases hlen : (m.error_history ++ [({ timestamp := t, attempt := none } : ErrorInfo)]).length >
      m.max_errors_per_hour
  · rw [if_pos hlen]
    simp only [List.length_append, List.length_cons, List.length_nil] at hlen
    refine ⟨rfl, rfl, ?_⟩
    rw [if_pos (by omega)]
    rfl
  · rw [if_neg hlen]
    simp only [List.length_append, List.length_cons, List.length_nil] at hlen
    refine ⟨rfl, rfl, ?_⟩
    rw [if_neg (by omega)]

theorem recordErrors_aux (t0 : Int) :
    ∀ (ts : List Int) (m : ErrorRecoveryManager),
      (∀ e ∈ m.error_history, t0 ≤ e.timestamp ∧ e.timestamp < t0 + 3600) →
      (∀ t ∈ ts, t0 ≤ t ∧ t < t0 + 3600) →
      m.degraded_features = (if m.error_history.length > m.max_errors_per_hour
        then ["streaming", "auto_context_analysis", "advanced_caching"] else []) →
      (recordErrors ts m).error_history.length = m.error_history.length + ts.length ∧
      (recordErrors ts m).max_errors_per_hour = m.max_errors_per_hour ∧
      (recordErrors ts m).degraded_features =
        (if m.error_history.length + ts.length > m.max_errors_per_hour
          then ["streaming", "auto_context_analysis", "advanced_caching"] else []) := by
  intro ts
  induction ts with
  | nil =>
      intro m hwin hts hdeg
      refine ⟨by simp [recordErrors], by simp [recordErrors], ?_⟩
      simpa [recordErrors] using hdeg
  | cons t rest ih =>
      intro m hwin hts hdeg
      have ht : t0 ≤ t ∧ t < t0 + 3600 := hts t (List.mem_cons_self t rest)
      obtain ⟨hh, hmax, hdeg'⟩ := record_error_step hwin ht
      have hrest : ∀ x ∈ rest, t0 ≤ x ∧ x < t0 + 3600 :=
        fun x hx => hts x (List.mem_cons_of_mem t hx)
      have hwin' : ∀ e ∈ (m.record_error t none).error_history,
          t0 ≤ e.timestamp ∧ e.timestamp < t0 + 3600 := by
        rw [hh]
        intro e he
        rcases List.mem_append.mp he with he | he
        · exact hwin e he
        · simp only [List.mem_singleton] at he
          subst he
          exact ht
      have htrig : (triggerDegradation m).degraded_features =
          ["streaming", "auto_context_analysis", "advanced_caching"] := by
        have hun : (triggerDegradation m).degraded_features =
            setAdd "advanced_caching" (setAdd "auto_context_analysis"
              (setAdd "streaming" m.degraded_features)) := rfl
        rw [hun, hdeg]
        by_cases hcase : m.error_history.length > m.max_errors_per_hour
        · rw [if_pos hcase]
          rfl
        · rw [if_neg hcase]
          rfl
      have hdeg'' : (m.record_error t none).degraded_features =
          (if (m.record_error t none).error_history.length >
              (m.record_error t none).max_errors_per_hour
            then ["streaming", "auto_context_analysis", "advanced_caching"] else []) := by
        rw [hdeg', hh, hmax]
        simp only [List.length_append, List.length_cons, List.length_nil]
        by_cases hcase : m.error_history.length + 1 > m.max_errors_per_hour
        · rw [if_pos hcase, if_pos (by omega), htrig]
        · rw [if_neg hcase, if_neg (by omega), hdeg,
            if_neg (by omega)]
      have hstep : recordErrors (t :: rest) m = recordErrors rest (m.record_error t none) := by
        simp [recordErrors]
      obtain ⟨ihl, ihm, ihd⟩ := ih (m.record_error t none) hwin' hrest hdeg''
      rw [hstep]
      refine ⟨?_, ?_, ?_⟩
      · rw [ihl, hh]
        simp only [List.length_append, List.length_cons, List.length_nil]
        omega
      · rw [ihm, hmax]
      · rw [ihd, hh, hmax]
        simp only [List.length_append, List.length_cons, List.length_nil]
        by_cases hcase : m.error_history.length + (rest.length + 1) > m.max_errors_per_hour
        · rw [if_pos (by omega), if_pos (by omega)]
        · rw [if_neg (by omega), if_neg (by omega)]

/-- **C9**.  Recording strictly more than `max_errors_per_hour` errors
within one hour puts the fixed feature names `streaming`,
`auto_context_analysis` and `advanced_caching` into the degraded-features
set (which is then non-empty); recording at most `max_errors_per_hour`
errors leaves the set empty. -/
theorem C9_degradation_threshold (maxE : Nat) (t0 : Int) (ts : List Int)
    (hwin : ∀ t ∈ ts, t0 ≤ t ∧ t < t0 + 3600) :
    (ts.length > maxE →
      (recordErrors ts (ErrorRecoveryManager.init maxE)).degraded_features =
        ["streaming", "auto_context_analysis", "advanced_caching"] ∧
      (recordErrors ts (ErrorRecoveryManager.init maxE)).degraded_features ≠ []) ∧
    (ts.length ≤ maxE →
      (recordErrors ts (ErrorRecoveryManager.init maxE)).degraded_features = []) := by
  obtain ⟨hl, hm, hd⟩ := recordErrors_aux t0 ts (ErrorRecoveryManager.init maxE)
    (by simp [ErrorRecoveryManager.init]) hwin
    (by simp [ErrorRecoveryManager.init])
  have h0 : (ErrorRecoveryManager.init maxE).error_history.length = 0 := rfl
  have hM : (ErrorRecoveryManager.init maxE).max_errors_per_hour = maxE := rfl
  rw [h0, hM, Nat.zero_add] at hd
  constructor
  · intro hgt
    rw [hd, if_pos hgt]
    exact ⟨rfl, by simp⟩
  · intro hle
    rw [hd, if_neg (by omega)]

/-- Witness for `C9_degradation_threshold`: budget 5, six errors inside one
minute trigger degradation; five do not. -/
theorem C9_degradation_threshold_witness :
    (recordErrors [0, 10, 20, 30, 40, 50] (ErrorRecoveryManager.init 5)).degraded_features =
      ["streaming", "auto_context_analysis", "advanced_caching"] ∧
    (recordErrors [0, 10, 20, 30, 40] (ErrorRecoveryManager.init 5)).degraded_features = [] := by
  have h6 := C9_degradation_threshold 5 0 [0, 10, 20, 30, 40, 50] (by decide)
  have h5 := C9_degradation_threshold 5 0 [0, 10, 20, 30, 40] (by decide)
  exact ⟨(h6.1 (by decide)).1, h5.2 (by decide)⟩

/-! ## C10: conversation id collisions within one epoch second -/

theorem convFind_assign_self (k : String) (v : Conversation)
    (l : List (String × Conversation)) :
    convFind k (convAssign k v l) = some v := by
  induction l with
  | nil => simp [convAssign, convFind]
  | cons hd tl ih =>
      obtain ⟨k', v'⟩ := hd
      by_cases h : k' = k
      · simp [convAssign, convFind, h]
      · simp [convAssign, convFind, h, ih]

/-- **C10**.  `start_conversation` builds the id as
`agent_type + "_" + int(time.time())`, so two calls with the same agent
type whose clock readings truncate to the same epoch second produce the
same id; the second call overwrites the store entry, so a turn recorded on
the first conversation becomes unreachable — the shared id afterwards maps
to the fresh conversation with no turns and the second call's context. -/
theorem C10_same_second_id_collision (agent_type ctx1 ctx2 : String)
    (t1 t2 : Rat) (s : AgentStore) (r : TurnReq)
    (hsec : pyInt t1 = pyInt t2) :
    (AIAgent.start_conversation agent_type ctx2 t2
      ((AIAgent.start_conversation agent_type ctx1 t1 s).2.add_turn_to
        (AIAgent.start_conversation agent_type ctx1 t1 s).1 r)).1 =
      (AIAgent.start_conversation agent_type ctx1 t1 s).1 ∧
    ((convFind (AIAgent.start_conversation agent_type ctx1 t1 s).1
      ((AIAgent.start_conversation agent_type ctx1 t1 s).2.add_turn_to
        (AIAgent.start_conversation agent_type ctx1 t1 s).1 r).conversations).map
      (fun cv => cv.turns)) = some [r.toTurn] ∧
    ((convFind (AIAgent.start_conversation agent_type ctx1 t1 s).1
      (AIAgent.start_conversation agent_type ctx2 t2
        ((AIAgent.start_conversation agent_type ctx1 t1 s).2.add_turn_to
          (AIAgent.start_conversation agent_type ctx1 t1 s).1 r)).2.conversations).map
      (fun cv => cv.turns)) = some [] ∧
    ((convFind (AIAgent.start_conversation agent_type ctx1 t1 s).1
      (AIAgent.start_conversation agent_type ctx2 t2
        ((AIAgent.start_conversation agent_type ctx1 t1 s).2.add_turn_to
          (AIAgent.start_conversation agent_type ctx1 t1 s).1 r)).2.conversations).map
      (fun cv => cv.context)) = some (some ctx2) := by
  have hid : (AIAgent.start_conversation agent_type ctx1 t1 s).1 =
      agent_type ++ "_" ++ toString (pyInt t1) := rfl
  have hid2 : (AIAgent.start_conversation agent_type ctx2 t2
      ((AIAgent.start_conversation agent_type ctx1 t1 s).2.add_turn_to
        (AIAgent.start_conversation agent_type ctx1 t1 s).1 r)).1 =
      agent_type ++ "_" ++ toString (pyInt t2) := rfl
  have hideq : (AIAgent.start_conversation agent_type ctx2 t2
      ((AIAgent.start_conversation agent_type ctx1 t1 s).2.add_turn_to
        (AIAgent.start_conversation agent_type ctx1 t1 s).1 r)).1 =
      (AIAgent.start_conversation agent_type ctx1 t1 s).1 := by
    rw [hid2, hid, hsec]
  have hfind1 : convFind (AIAgent.start_conversation agent_type ctx1 t1 s).1
      (AIAgent.start_conversation agent_type ctx1 t1 s).2.conversations =
      some { id := agent_type ++ "_" ++ toString (pyInt t1)
             agent_type := agent_type
             turns := []
             context := some ctx1
             created_at := pyInt t1
             updated_at := pyInt t1
             last_activity := pyInt t1
             max_turns := 50 } := by
    unfold AIAgent.start_conversation
    simp only
    exact convFind_assign_self _ _ _
  have hs1' : ((AIAgent.start_conversation agent_type ctx1 t1 s).2.add_turn_to
      (AIAgent.start_conversation agent_type ctx1 t1 s).1 r).conversations =
      convAssign (AIAgent.start_conversation agent_type ctx1 t1 s).1
        (({ id := agent_type ++ "_" ++ toString (pyInt t1)
            agent_type := agent_type
            turns := []
            context := some ctx1
            created_at := pyInt t1
            updated_at := pyInt t1
            last_activity := pyInt t1
            max_turns := 50 } : Conversation).add_turn r.now r.user_message
            r.assistant_response r.context r.reasoning)
        (AIAgent.start_conversation agent_type ctx1 t1 s).2.conversations := by
    unfold AgentStore.add_turn_to
    rw [hfind1]
  have hturns : (({
          id := agent_type ++ "_" ++ toString (pyInt t1),
          agent_type := agent_type, turns := [], context := some ctx1,
          created_at := pyInt t1, updated_at := pyInt t1,
          last_activity := pyInt t1, max_turns := 50 } : Conversation).add_turn
        r.now r.user_message r.assistant_response r.context r.reasoning).turns =
      [r.toTurn] := by
    rw [add_turn_turns]
    simp
  refine ⟨hideq, ?_, ?_, ?_⟩
  · rw [hs1', convFind_assign_self]
    simp [hturns]
  · unfold AIAgent.start_conversation
    simp only
    rw [hsec, convFind_assign_self]
    rfl
  · unfold AIAgent.start_conversation
    simp only
    rw [hsec, convFind_assign_self]
    rfl

/-- Witness for `C10_same_second_id_collision`: clock readings 26/5 = 5.2
and 29/5 = 5.8 truncate to the same epoch second 5. -/
theorem C10_same_second_id_collision_witness :
    (AIAgent.start_conversation "code_assistant" "ctx2" ⟨29, 5, by decide, by norm_num⟩
      ((AIAgent.start_conversation "code_assistant" "ctx1" ⟨26, 5, by decide, by norm_num⟩
        { conversations := [], active_conversation := none }).2.add_turn_to
        (AIAgent.start_conversation "code_assistant" "ctx1" ⟨26, 5, by decide, by norm_num⟩
          { conversations := [], active_conversation := none }).1
        ⟨6, "hello", "hi", none, none⟩)).1 =
      (AIAgent.start_conversation "code_assistant" "ctx1" ⟨26, 5, by decide, by norm_num⟩
        { conversations := [], active_conversation := none }).1 ∧
    ((convFind (AIAgent.start_conversation "code_assistant" "ctx1"
        ⟨26, 5, by decide, by norm_num⟩
      { conversations := [], active_conversation := none }).1
      (AIAgent.start_conversation "code_assistant" "ctx2" ⟨29, 5, by decide, by norm_num⟩
        ((AIAgent.start_conversation "code_assistant" "ctx1" ⟨26, 5, by decide, by norm_num⟩
          { conversations := [], active_conversation := none }).2.add_turn_to
          (AIAgent.start_conversation "code_assistant" "ctx1" ⟨26, 5, by decide, by norm_num⟩
            { conversations := [], active_conversation := none }).1
          ⟨6, "hello", "hi", none, none⟩)).2.conversations).map
      (fun cv => cv.turns)) = some [] := by
  have h := C10_same_second_id_collision "code_assistant" "ctx1" "ctx2"
    ⟨26, 5, by decide, by norm_num⟩ ⟨29, 5, by decide, by norm_num⟩
    { conversations := [], active_conversation := none }
    ⟨6, "hello", "hi", none, none⟩ (by decide)
  exact ⟨h.1, h.2.2.1⟩

/-! ## C6: the retry wrapper -/

theorem record_error_parts (m : ErrorRecoveryManager) (now : Int) (a : Option Nat)
    (hts : ∀ e ∈ m.error_history, e.timestamp = now) :
    (m.record_error now a).error_history =
      m.error_history ++ [({ timestamp := now, attempt := a } : ErrorInfo)] ∧
    (m.record_error now a).circuit_breakers = m.circuit_breakers ∧
    (∀ e ∈ (m.record_error now a).error_history, e.timestamp = now) := by
  have hfil : (m.error_history ++ [({ timestamp := now, attempt := a } : ErrorInfo)]).filter
      (fun e => now - 3600 < e.timestamp) =
      m.error_history ++ [({ timestamp := now, attempt := a } : ErrorInfo)] := by
    apply List.filter_eq_self.mpr
    intro e he
    rcases List.mem_append.mp he with he | he
    · have := hts e he
      simp only [decide_eq_true_eq]
      omega
    · simp only [List.mem_singleton] at he
      subst he
      simp only [decide_eq_true_eq]
      omega
  have hhist : ∀ e ∈ m.error_history ++ [({ timestamp := now, attempt := a } : ErrorInfo)],
      e.timestamp = now := by
    intro e he
    rcases List.mem_append.mp he with he | he
    · exact hts e he
    · simp only [List.mem_singleton] at he
      subst he
      rfl
  unfold ErrorRecoveryManager.record_error
  simp only [hfil]
  split
  · exact ⟨rfl, rfl, hhist⟩
  · exact ⟨rfl, rfl, hhist⟩

theorem trip_history (m : ErrorRecoveryManager) (now : Int) (op : String) (tmo : Int) :
    (m.trip_circuit_breaker now op tmo).error_history = m.error_history := rfl

theorem trip_breakerFind (m : ErrorRecoveryManager) (now : Int) (op : String) (tmo : Int) :
    breakerFind op (m.trip_circuit_breaker now op tmo).circuit_breakers =
      some { state := .tripped, tripped_at := now, timeout_seconds := tmo } :=
  breakerFind_assign_self op _ m.circuit_breakers

theorem check_preserves_history (m : ErrorRecoveryManager) (now : Int) (op : String) :
    (m.check_circuit_breaker now op).2.error_history = m.error_history := by
  unfold ErrorRecoveryManager.check_circuit_breaker
  cases breakerFind op m.circuit_breakers with
  | none => rfl
  | some b =>
      by_cases h1 : b.state = .closed
      · simp [h1]
      · by_cases h2 : now - b.tripped_at > b.timeout_seconds
        · simp [h1, h2]
        · simp [h1, h2]

theorem retryAttempts_all_fail (β : Type) (now : Int) (rd : Rat) (fb : Option β)
    (name : String) (op : Nat → Except String β) (es : Nat → String)
    (hop : ∀ i, op i = Except.error (es i)) (hrd : 0 < rd) :
    ∀ (r attempt inv : Nat) (m : ErrorRecoveryManager) (ds : List Rat) (last : String),
      (∀ e ∈ m.error_history, e.timestamp = now) →
      ∃ m' : ErrorRecoveryManager,
        retryAttempts β now rd fb (some name) op (r + 1) attempt (some m) inv ds last =
          { result := match fb with
              | some v => Except.ok (some v)
              | none => Except.error (es (attempt + r))
            invocations := inv + (r + 1)
            delays := ds ++ (List.range r).map (fun j => rd * (((attempt + j : Nat) : Rat) + 1))
            manager := some m' } ∧
        m'.error_history.map (fun e => e.attempt) =
          m.error_history.map (fun e => e.attempt) ++
            (List.range (r + 1)).map (fun j => some (attempt + j + 1)) ∧
        breakerFind name m'.circuit_breakers =
          some { state := .tripped, tripped_at := now, timeout_seconds := 300 } := by
  intro r
  induction r with
  | zero =>
      intro attempt inv m ds last hts
      obtain ⟨hh, hb, _⟩ := record_error_parts m now (some (attempt + 1)) hts
      refine ⟨(m.record_error now (some (attempt + 1))).trip_circuit_breaker now name 300,
        ?_, ?_, ?_⟩
      · rw [retryAttempts, hop attempt]
        simp [retryEpilogue]
      · rw [trip_history, hh]
        simp [List.range_succ]
      · exact trip_breakerFind _ now name 300
  | succ r ih =>
      intro attempt inv m ds last hts
      obtain ⟨hh, hb, hts'⟩ := record_error_parts m now (some (attempt + 1)) hts
      obtain ⟨m', hm'eq, hm'hist, hm'brk⟩ := ih (attempt + 1) (inv + 1)
        (m.record_error now (some (attempt + 1)))
        (ds ++ [rd * ((attempt : Rat) + 1)]) (es attempt) hts'
      refine ⟨m', ?_, ?_, hm'brk⟩
      · rw [retryAttempts, hop attempt]
        have hmap : Option.map (fun mm => ErrorRecoveryManager.record_error now
            (some (attempt + 1)) mm) (some m) =
            some (m.record_error now (some (attempt + 1))) := rfl
        simp only [hmap, if_neg (Nat.succ_ne_zero r), if_pos hrd]
        rw [hm'eq]
        congr 1
        · have harg : attempt + 1 + r = attempt + (r + 1) := by omega
          rw [harg]
        · omega
        · rw [List.append_assoc]
          congr 1
          rw [List.range_succ_eq_map r, List.map_cons, List.map_map, List.singleton_append]
          congr 1
          apply List.map_congr_left
          intro j hj
          simp only [Function.comp, Nat.succ_eq_add_one]
          push_cast
          ring
      · rw [hm'hist, hh, List.map_append, List.append_assoc]
        congr 1
        rw [List.range_succ_eq_map (r + 1)]
        simp only [List.map_cons, List.map_map, List.map_nil, List.singleton_append]
        congr 1
        apply List.map_congr_left
        intro j hj
        simp only [Function.comp, Nat.succ_eq_add_one, Option.some.injEq]
        omega

/-- **C6**.  When every attempt of the wrapped operation fails and a
circuit-breaker name and error manager are configured: if the breaker
allows the call, the wrapper invokes the operation exactly
`retry_count + 1` times, sleeps `retry_delay * attempt_number` before each
retry, records every failure with the 1-based attempt number in context,
trips the named breaker (to open, tripped at `now`, 300 s timeout) after
the final failure, and returns the configured fallback value if one is
configured, else re-raises the last exception.  If the breaker blocks the
call, the operation is never invoked and the fallback value is returned. -/
theorem C6_retry_wrapper (β : Type) (now : Int) (retry_count : Nat) (retry_delay : Rat)
    (fallback_value : Option β) (name : String) (m : ErrorRecoveryManager)
    (op : Nat → Except String β) (es : Nat → String)
    (hop : ∀ i, op i = Except.error (es i))
    (hrd : 0 < retry_delay)
    (hhist : m.error_history = []) :
    ((m.check_circuit_breaker now name).1 = true →
      ∃ m' : ErrorRecoveryManager,
        with_error_handling β now retry_count retry_delay fallback_value (some name)
          (some m) op =
          { result := match fallback_value with
              | some v => Except.ok (some v)
              | none => Except.error (es retry_count)
            invocations := retry_count + 1
            delays := (List.range retry_count).map
              (fun j : Nat => retry_delay * ((j : Rat) + 1))
            manager := some m' } ∧
        m'.error_history.map (fun e => e.attempt) =
          (List.range (retry_count + 1)).map (fun j => some (j + 1)) ∧
        breakerFind name m'.circuit_breakers =
          some { state := .tripped, tripped_at := now, timeout_seconds := 300 }) ∧
    ((m.check_circuit_breaker now name).1 = false →
      with_error_handling β now retry_count retry_delay fallback_value (some name)
        (some m) op =
        { result := Except.ok fallback_value
          invocations := 0
          delays := []
          manager := some (m.check_circuit_breaker now name).2 }) := by
  constructor
  · intro hallow
    have hts : ∀ e ∈ (m.check_circuit_breaker now name).2.error_history,
        e.timestamp = now := by
      rw [check_preserves_history, hhist]
      intro e he
      simp at he
    obtain ⟨m', hm'eq, hm'hist, hm'brk⟩ := retryAttempts_all_fail β now retry_delay
      fallback_value name op es hop hrd retry_count 0 0
      (m.check_circuit_breaker now name).2 [] "" hts
    refine ⟨m', ?_, ?_, hm'brk⟩
    · simp only [with_error_handling]
      rw [if_pos hallow, hm'eq]
      congr 1
      · simp
      · omega
      · simp only [List.nil_append]
        apply List.map_congr_left
        intro j hj
        simp
    · rw [hm'hist, check_preserves_history, hhist]
      simp only [List.map_nil, List.nil_append]
      apply List.map_congr_left
      intro j hj
      simp
  · intro hblock
    simp only [with_error_handling]
    rw [if_neg (by rw [hblock]; exact Bool.false_ne_true)]

/-- Witness for `C6_retry_wrapper`: `retry_count = 2`, `retry_delay = 1`,
fallback 7, a fresh manager (breaker closed) and an operation that always
raises: exactly 3 invocations, delays 1 and 2, fallback returned, breaker
tripped. -/
theorem C6_retry_wrapper_witness :
    ∃ m' : ErrorRecoveryManager,
      with_error_handling Nat 0 2 1 (some 7) (some "conversation_api")
        (some (ErrorRecoveryManager.init 50)) (fun _ => Except.error "boom") =
        { result := Except.ok (some 7)
          invocations := 3
          delays := (List.range 2).map (fun j : Nat => 1 * ((j : Rat) + 1))
          manager := some m' } ∧
      m'.error_history.map (fun e => e.attempt) = [some 1, some 2, some 3] ∧
      breakerFind "conversation_api" m'.circuit_breakers =
        some { state := .tripped, tripped_at := 0, timeout_seconds := 300 } := by
  have h := (C6_retry_wrapper Nat 0 2 1 (some 7) "conversation_api"
    (ErrorRecoveryManager.init 50) (fun _ => Except.error "boom") (fun _ => "boom")
    (fun i => rfl) (by norm_num) rfl).1 rfl
  obtain ⟨m', heq, hhist, hbrk⟩ := h
  exact ⟨m', heq, by rw [hhist]; rfl, hbrk⟩
